import Mathlib

/-!
Verification of the GitHub-roast pipeline of `server.py` (Puch-AI).

The Python code is shallowly embedded: Python strings are Lean `String`s,
manipulated through executable functions on `List Char` that mirror the
semantics of the Python string methods used by the source (`strip`,
`rstrip`, `split`, `splitlines`, `replace`, `lower`, `startswith`).
JSON values decoded from HTTP responses are modelled by the inductive
type `Json` (numbers are modelled as integers: every numeric field the
pipeline touches is a GitHub count).  Fallible Python code (statements
that can raise) is modelled with `Except`.
-/

namespace Puch

/-- The characters that the Python argument-less `str.strip()` removes:
exactly the characters for which `str.isspace()` holds. -/
def isPyWs (c : Char) : Bool :=
  c = ' ' || c = '\t' || c = '\n' || c = '\r' ||
  c = Char.ofNat 0x0b || c = Char.ofNat 0x0c ||
  c = Char.ofNat 0x1c || c = Char.ofNat 0x1d ||
  c = Char.ofNat 0x1e || c = Char.ofNat 0x1f ||
  c = Char.ofNat 0x85 || c = Char.ofNat 0xa0 ||
  c = Char.ofNat 0x1680 ||
  (Char.ofNat 0x2000 ≤ c && c ≤ Char.ofNat 0x200a) ||
  c = Char.ofNat 0x2028 || c = Char.ofNat 0x2029 ||
  c = Char.ofNat 0x202f || c = Char.ofNat 0x205f ||
  c = Char.ofNat 0x3000

/-- Drop leading characters satisfying `p` (Python `lstrip` restricted to a set). -/
def stripLeftBy (p : Char → Bool) (l : List Char) : List Char :=
  l.dropWhile p

/-- Drop trailing characters satisfying `p` (Python `rstrip` restricted to a set). -/
def stripRightBy (p : Char → Bool) : List Char → List Char
  | [] => []
  | c :: t =>
    match stripRightBy p t with
    | [] => if p c then [] else [c]
    | d :: t => c :: d :: t

/-- Python `str.strip()` on a character list. -/
def pyStripL (l : List Char) : List Char :=
  stripRightBy isPyWs (stripLeftBy isPyWs l)

/-- Python `str.strip()`. -/
def pyStrip (s : String) : String :=
  ⟨pyStripL s.data⟩

/-- Python `str.lstrip()`. -/
def pyLStrip (s : String) : String :=
  ⟨stripLeftBy isPyWs s.data⟩

/-- Cons a character onto the first chunk of a split result. -/
def consHead (c : Char) : List (List Char) → List (List Char)
  | [] => [[c]]
  | p :: ps => (c :: p) :: ps

/-- Python `str.split("\n\n")`: split on each non-overlapping occurrence of
two consecutive newlines, scanning left to right. -/
def splitBlank : List Char → List (List Char)
  | [] => [[]]
  | '\n' :: '\n' :: rest => [] :: splitBlank rest
  | c :: rest => consHead c (splitBlank rest)

/-- Python `str.split("\n")`. -/
def splitNl : List Char → List (List Char)
  | [] => [[]]
  | '\n' :: rest => [] :: splitNl rest
  | c :: rest => consHead c (splitNl rest)

/-- The line-boundary characters of Python `str.splitlines()`
(besides the two-character boundary `"\r\n"`). -/
def isLineBreak (c : Char) : Bool :=
  c = '\n' || c = '\r' ||
  c = Char.ofNat 0x0b || c = Char.ofNat 0x0c ||
  c = Char.ofNat 0x1c || c = Char.ofNat 0x1d ||
  c = Char.ofNat 0x1e || c = Char.ofNat 0x85 ||
  c = Char.ofNat 0x2028 || c = Char.ofNat 0x2029

/-- Python `str.splitlines()`: line boundaries end a line; a trailing
boundary does not produce a final empty line. -/
def splitLinesPy : List Char → List (List Char)
  | [] => []
  | '\r' :: '\n' :: rest => [] :: splitLinesPy rest
  | c :: rest =>
    if isLineBreak c then [] :: splitLinesPy rest
    else consHead c (splitLinesPy rest)

/-- Python `str.replace("\r\n", "\n")`: non-overlapping, left to right. -/
def replaceCrLf : List Char → List Char
  | [] => []
  | '\r' :: '\n' :: rest => '\n' :: replaceCrLf rest
  | c :: rest => c :: replaceCrLf rest

/-- Python `str.replace("\r", "\n")`. -/
def replaceCr (l : List Char) : List Char :=
  l.map fun c => if c = '\r' then '\n' else c

/-- ASCII lowering, as used by the preamble check of the normalizer.  The
Python `str.lower()` also lowers non-ASCII letters, but every preamble phrase the
check compares against is pure ASCII, and no Unicode lowering produces an
ASCII letter at a position where it matters for a `startswith` against
those phrases. -/
def pyLowerL (l : List Char) : List Char :=
  l.map Char.toLower

/-- JSON values as decoded by `response.json()`.  Numbers are modelled as
integers (all numeric fields consumed by the pipeline are GitHub counts). -/
inductive Json where
  | null : Json
  | bool : Bool → Json
  | num : Int → Json
  | str : String → Json
  | arr : List Json → Json
  | obj : List (String × Json) → Json

/-- Python truthiness of a JSON-decoded value, as used by `or` and `if`. -/
def pyTruthy : Json → Bool
  | .null => false
  | .bool b => b
  | .num n => n != 0
  | .str s => s != ""
  | .arr xs => !xs.isEmpty
  | .obj kvs => !kvs.isEmpty

/-- A decoded JSON object (Python `dict[str, Any]`): keys are unique in
objects produced by decoding, so first-match association lookup models
Python dict lookup. -/
abbrev PyDict := List (String × Json)

/-- Python `dict.get(key, default)`. -/
def dget (kvs : PyDict) (k : String) (d : Json) : Json :=
  match kvs.find? (fun kv => kv.1 == k) with
  | some kv => kv.2
  | none => d

/-- Python `dict.get(key)` (default `None`). -/
def dgetN (kvs : PyDict) (k : String) : Json :=
  dget kvs k Json.null

/-- The value at the key, if present (used to state default/passthrough facts). -/
def plookup (kvs : PyDict) (k : String) : Option Json :=
  (kvs.find? (fun kv => kv.1 == k)).map (·.2)

/-- One entry of the shaped `"repos"` list built by `shape_roast_input`. -/
structure RepoShape where
  name : Json
  description : Json
  language : Json
  updated_at : Json
  stargazers_count : Json
  fork : Json
  open_issues_count : Json

/-- The record built by `shape_roast_input` (all keys of the returned dict
are always present, so it is modelled as a structure). -/
structure ShapedRecord where
  username : Json
  name : Json
  bio : Json
  company : Json
  location : Json
  followers : Json
  following : Json
  public_repos : Json
  created_at : Json
  repos : List RepoShape
  readme : String

/-- Model of `shape_roast_input` (server.py lines 154-178): projects the raw profile
dict, repo dicts and readme text into the generation input record.  Each
field is `dict.get` with the default of the source; the repo list is truncated
to ten entries (`repos[:10]`).  First, the per-repo projection of the
comprehension at lines 165-176. -/
def shapeRepo (r : PyDict) : RepoShape where
  name := dgetN r "name"
  description := dgetN r "description"
  language := dgetN r "language"
  updated_at := dgetN r "updated_at"
  stargazers_count := dget r "stargazers_count" (Json.num 0)
  fork := dget r "fork" (Json.bool false)
  open_issues_count := dget r "open_issues_count" (Json.num 0)

/-- The record construction of `shape_roast_input` itself. -/
def shape_roast_input (profile : PyDict) (repos : List PyDict) (readme : String) :
    ShapedRecord where
  username := dget profile "login" (Json.str "unknown")
  name := dgetN profile "name"
  bio := dgetN profile "bio"
  company := dgetN profile "company"
  location := dgetN profile "location"
  followers := dget profile "followers" (Json.num 0)
  following := dget profile "following" (Json.num 0)
  public_repos := dget profile "public_repos" (Json.num 0)
  created_at := dgetN profile "created_at"
  repos := (repos.take 10).map shapeRepo
  readme := readme

/-- Lookup fact: `dict.get` returns the default exactly when the key is absent. -/
theorem dget_of_absent (kvs : PyDict) (k : String) (d : Json)
    (h : plookup kvs k = none) : dget kvs k d = d := by
  unfold dget
  unfold plookup at h
  cases hf : kvs.find? (fun kv => kv.1 == k) with
  | none => rfl
  | some kv => rw [hf] at h; simp at h

/-- Lookup fact: `dict.get` returns the stored value when the key is present. -/
theorem dget_of_present (kvs : PyDict) (k : String) (d v : Json)
    (h : plookup kvs k = some v) : dget kvs k d = v := by
  unfold dget
  unfold plookup at h
  cases hf : kvs.find? (fun kv => kv.1 == k) with
  | none => rw [hf] at h; simp at h
  | some kv => rw [hf] at h; simp at h; exact h

/-- Does the JSON value store a non-negative integer? -/
def isNonnegInt : Json → Bool
  | .num n => 0 ≤ n
  | _ => false

/-- The decimal digit characters. -/
def digitChar : Nat → Char
  | 0 => '0' | 1 => '1' | 2 => '2' | 3 => '3' | 4 => '4'
  | 5 => '5' | 6 => '6' | 7 => '7' | 8 => '8' | _ => '9'

/-- Decimal digits of a natural number, most significant first; structural
recursion on a fuel argument so that the definition reduces inside the
kernel (any fuel of at least the digit count gives the same result; the
wrapper passes the number itself, which suffices since `n / 10 < n`). -/
def natToCharsGo : Nat → Nat → List Char → List Char
  | 0, _, acc => acc
  | fuel + 1, n, acc =>
    if n < 10 then digitChar n :: acc
    else natToCharsGo fuel (n / 10) (digitChar (n % 10) :: acc)

/-- Decimal digits of a natural number. -/
def natToChars (n : Nat) : List Char :=
  natToCharsGo (n + 1) n []

/-- Python `str()` of an integer: decimal digits, `-` sign when negative. -/
def pyIntStr (n : Int) : String :=
  if n < 0 then ⟨'-' :: natToChars (-n).toNat⟩ else ⟨natToChars n.toNat⟩

/-- Python `repr()` of a string (as it appears inside the `repr` of a
container): quotes with single quotes and escapes the quote character,
backslashes and common control characters.  This reproduces Python for
strings without special characters; the theorems below only ever render
atoms, never containers, so this routine is exercised by no claim. -/
def pyReprStrQ (s : String) : String :=
  let q := Char.ofNat 39
  let esc := s.data.flatMap fun c =>
    if c = '\\' then ['\\', '\\']
    else if c = q then ['\\', q]
    else if c = '\n' then ['\\', 'n']
    else if c = '\r' then ['\\', 'r']
    else if c = '\t' then ['\\', 't']
    else [c]
  ⟨q :: esc ++ [q]⟩

mutual

/-- Python `repr()` of a decoded JSON value. -/
def pyRepr : Json → String
  | .null => "None"
  | .bool true => "True"
  | .bool false => "False"
  | .num n => pyIntStr n
  | .str s => pyReprStrQ s
  | .arr xs => "[" ++ pyReprSeq xs ++ "]"
  | .obj kvs => "\x7b" ++ pyReprKvs kvs ++ "\x7d"

/-- Comma-joined `repr`s of list elements. -/
def pyReprSeq : List Json → String
  | [] => ""
  | [x] => pyRepr x
  | x :: y :: xs => pyRepr x ++ ", " ++ pyReprSeq (y :: xs)

/-- Comma-joined `key: value` `repr`s of dict entries. -/
def pyReprKvs : List (String × Json) → String
  | [] => ""
  | [(k, v)] => pyReprStrQ k ++ ": " ++ pyRepr v
  | (k, v) :: e :: xs => pyReprStrQ k ++ ": " ++ pyRepr v ++ ", " ++ pyReprKvs (e :: xs)

end

/-- Python `str()` of a decoded JSON value, as f-string interpolation
renders it: strings render as themselves, everything else as its `repr`. -/
def pyStr : Json → String
  | .str s => s
  | v => pyRepr v

/-- Numeric view of a value under Python `==`: `True == 1` and
`False == 0` hold across `bool`/`int`. -/
def jsonToIntQ : Json → Option Int
  | .bool b => some (if b then 1 else 0)
  | .num n => some n
  | _ => none

/-- Python `==` on the values that can appear as dict keys here.
Containers are unhashable in Python and never reach a key comparison
(`langHistogram` raises on them first); on them this returns `false`. -/
def pyEq (a b : Json) : Bool :=
  match jsonToIntQ a, jsonToIntQ b with
  | some x, some y => x == y
  | _, _ =>
    match a, b with
    | .null, .null => true
    | .str s, .str t => s == t
    | _, _ => false

/-- Is the value usable as a Python dict key (hashable)? -/
def pyHashable : Json → Bool
  | .arr _ => false
  | .obj _ => false
  | _ => true

/-- Model of `repo.get("language") or "Unknown"` (server.py line 188): Python `or`
keeps the left value when truthy, else yields the literal. -/
def langKey (r : RepoShape) : Json :=
  if pyTruthy r.language then r.language else Json.str "Unknown"

/-- Model of `top_langs[lang] = top_langs.get(lang, 0) + 1` on an insertion-ordered
table: bump the first entry whose key compares `==`, else append. -/
def bumpCount (tbl : List (Json × Int)) (k : Json) : List (Json × Int) :=
  match tbl with
  | [] => [(k, 1)]
  | (k0, n) :: rest =>
    if pyEq k0 k then (k0, n + 1) :: rest else (k0, n) :: bumpCount rest k

/-- The language-count dict built by the loop at server.py lines 186-189.
An unhashable key (list/dict language value) raises `TypeError`. -/
def langHistogram (repos : List RepoShape) : Except String (List (Json × Int)) :=
  repos.foldlM
    (fun tbl r =>
      let k := langKey r
      if pyHashable k then .ok (bumpCount tbl k) else .error "TypeError: unhashable type")
    []

/-- Stable insertion into a descending-by-count list: an element goes
before the first strictly smaller count, after equal counts. -/
def insertDesc {α : Type} (x : α × Int) : List (α × Int) → List (α × Int)
  | [] => [x]
  | y :: ys => if x.2 ≥ y.2 then x :: y :: ys else y :: insertDesc x ys

/-- Model of `sorted(..., key=lambda kv: kv[1], reverse=True)`: the Python
sort is stable, and the stable descending order is unique, so stable insertion
sort models it exactly. -/
def sortDesc {α : Type} : List (α × Int) → List (α × Int)
  | [] => []
  | x :: xs => insertDesc x (sortDesc xs)

/-- Rendering `f"{k} x{v}"` for one histogram entry. -/
def renderLang (kv : Json × Int) : String :=
  pyStr kv.1 ++ " x" ++ pyIntStr kv.2

/-- The `langs_summary` expression of server.py lines 190-191. -/
def langsSummary (repos : List RepoShape) : Except String String := do
  let tbl ← langHistogram repos
  let sorted := sortDesc tbl
  pure (if sorted.isEmpty then "None"
        else String.intercalate ", " ((sorted.take 3).map renderLang))

/-- Paragraph 1 of the fallback roast (server.py lines 193-196). -/
def roastPara1 (username : String) (public_repos followers : Json) (stars : Int) :
    String :=
  "So, " ++ username ++ ", rocking a grand total of " ++ pyStr public_repos ++
  " public repos and " ++ pyStr followers ++ " followers. " ++
  "That's not a GitHub presence, that's witness protection. Your star count (" ++
  pyIntStr stars ++
  ") suggests your most loyal fan is the stargazer button you keep pressing in your sleep."

/-- Paragraph 2 of the fallback roast (server.py lines 198-201). -/
def roastPara2 (summary : String) : String :=
  "Languages you dabble in: " ++ summary ++
  ". That's not a tech stack, that's a buffet plate where you touched everything and finished nothing. " ++
  "Half your repos look like tutorials you rage-quit after the README."

/-- Paragraph 3 of the fallback roast (server.py lines 203-206); the
odd characters around "just maybe" are the source file's own bytes. -/
def roastPara3 : String :=
  "Your profile README reads like a motivational poster stapled to a TODO list. " ++
  "Ship something, delete the zombie projects, and maybeâ€”just maybeâ€”write code people actually want to star."

/-- Model of `sum(repo.get("stargazers_count", 0) for repo in shaped.get("repos", []))`:
Python `sum` starts from the int 0; adding a bool is adding its int value;
adding any non-numeric value raises `TypeError`.  (The shaped record always
carries the `"stargazers_count"` and `"repos"` keys, so the `.get` defaults
are dead.) -/
def pySumStars (repos : List RepoShape) : Except String Int :=
  repos.foldlM
    (fun acc r =>
      match r.stargazers_count with
      | .num n => .ok (acc + n)
      | .bool b => .ok (acc + (if b then 1 else 0))
      | _ => .error "TypeError: unsupported operand type for +")
    0

/-- Model of `fallback_rules_based_roast` (server.py lines 180-208).  The star sum
is computed before the language loop, as in the source; either may raise
`TypeError` on malformed field values, modelled by `Except.error`. -/
def fallback_rules_based_roast (username : String) (shaped : ShapedRecord) :
    Except String String := do
  let stars ← pySumStars shaped.repos
  let summary ← langsSummary shaped.repos
  pure (roastPara1 username shaped.public_repos shaped.followers stars ++ "\n\n" ++
        roastPara2 summary ++ "\n\n" ++ roastPara3)

/-- Two consecutive newline characters occur somewhere in the list. -/
def hasBlank : List Char → Bool
  | '\n' :: '\n' :: _ => true
  | _ :: rest => hasBlank rest
  | [] => false

/-- The RoastText output contract: splitting on `"\n\n"` yields exactly
three chunks, all non-empty — three non-empty paragraphs separated by
exactly one blank line. -/
def isThreeParagraphs (s : String) : Bool :=
  let ps := splitBlank s.data
  ps.length == 3 && ps.all (fun p => !p.isEmpty)

/-- Keep the first occurrence of each element, in first-seen order. -/
def dedupFirst : List String → List String
  | [] => []
  | x :: xs => x :: dedupFirst (xs.filter (fun y => y != x))
termination_by l => l.length
decreasing_by
  simp only [List.length_cons]
  exact Nat.lt_succ_of_le (List.length_filter_le _ _)

/-- Language classification following the words of claim C7: a repo with
missing or null language counts as "Unknown" (an upstream repo without the
key reaches the fallback with a null language after shaping). -/
def claimLangName (r : RepoShape) : String :=
  match r.language with
  | .null => "Unknown"
  | .str s => s
  | v => pyStr v

/-- Language classification of the amended claim: a repo whose language
value is Python-falsy (missing, null, empty string, zero, false) counts
as "Unknown". -/
def amendedLangName (r : RepoShape) : String :=
  if pyTruthy r.language then pyStr r.language else "Unknown"

/-- The reference language summary of claim C7, parameterized by the
classification: count repos per classified language, order by descending
count with ties in first-seen order, keep the top 3 entries (3 lies in
the range 3-5 named by the claim), render each as "Lang xCount", join
with ", "; the literal "None" if there are no repos. -/
def langsSummaryRef (classify : RepoShape → String) (repos : List RepoShape) :
    String :=
  let langs := repos.map classify
  let entries := (dedupFirst langs).map fun l => (l, (langs.count l : Int))
  let sorted := sortDesc entries
  if sorted.isEmpty then "None"
  else String.intercalate ", " ((sorted.take 3).map fun kv =>
    kv.1 ++ " x" ++ pyIntStr kv.2)

/-- String-keyed counting table update (the histogram keys are all strings
once every language value is null or a string). -/
def bumpS (tbl : List (String × Int)) (k : String) : List (String × Int) :=
  match tbl with
  | [] => [(k, 1)]
  | (k0, n) :: rest =>
    if k0 == k then (k0, n + 1) :: rest else (k0, n) :: bumpS rest k

/-- String-keyed histogram in insertion order. -/
def histS (ls : List String) : List (String × Int) :=
  ls.foldl bumpS []

/-- Is the language field null or a string (the types GitHub actually
returns for `language`)? -/
def atomLang (r : RepoShape) : Bool :=
  match r.language with
  | .null => true
  | .str _ => true
  | _ => false

theorem langKey_atom (r : RepoShape) (h : atomLang r = true) :
    langKey r = Json.str (amendedLangName r) := by
  unfold langKey amendedLangName
  cases hl : r.language with
  | null => simp [pyTruthy]
  | str s =>
    by_cases hs : s = "" <;> simp [pyTruthy, hs, pyStr]
  | bool b => rw [atomLang, hl] at h; simp at h
  | num n => rw [atomLang, hl] at h; simp at h
  | arr xs => rw [atomLang, hl] at h; simp at h
  | obj kvs => rw [atomLang, hl] at h; simp at h

/-- Lifting a string-keyed table entry into the JSON-keyed table. -/
def liftKv (kv : String × Int) : Json × Int :=
  (Json.str kv.1, kv.2)

theorem pyEq_str (a b : String) : pyEq (Json.str a) (Json.str b) = (a == b) := by
  rfl

theorem bumpCount_lift (tbl : List (String × Int)) (x : String) :
    bumpCount (tbl.map liftKv) (Json.str x) = (bumpS tbl x).map liftKv := by
  induction tbl with
  | nil => rfl
  | cons kv rest ih =>
    obtain ⟨k0, n⟩ := kv
    by_cases h : k0 = x
    · simp [bumpCount, bumpS, liftKv, pyEq_str, h]
    · simp [bumpCount, bumpS, liftKv, pyEq_str, h, ih]

theorem langHistogram_atom_aux (repos : List RepoShape)
    (h : ∀ r ∈ repos, atomLang r = true) (tbl : List (String × Int)) :
    repos.foldlM
      (fun tbl r =>
        let k := langKey r
        if pyHashable k then Except.ok (bumpCount tbl k)
        else Except.error "TypeError: unhashable type")
      (tbl.map liftKv)
    = Except.ok (((repos.map amendedLangName).foldl bumpS tbl).map liftKv) := by
  induction repos generalizing tbl with
  | nil => rfl
  | cons r rs ih =>
    have hr : atomLang r = true := h r (List.mem_cons_self r rs)
    have hrs : ∀ q ∈ rs, atomLang q = true :=
      fun q hq => h q (List.mem_cons_of_mem r hq)
    simp only [List.foldlM_cons, List.map_cons, List.foldl_cons]
    rw [langKey_atom r hr]
    simp only [pyHashable, if_true]
    rw [bumpCount_lift]
    simpa using ih hrs (bumpS tbl (amendedLangName r))

theorem langHistogram_atom (repos : List RepoShape)
    (h : ∀ r ∈ repos, atomLang r = true) :
    langHistogram repos
      = .ok ((histS (repos.map amendedLangName)).map liftKv) := by
  have := langHistogram_atom_aux repos h []
  simpa [langHistogram, histS] using this

theorem bumpS_of_mem (tbl : List (String × Int)) (x : String)
    (hnd : (tbl.map (·.1)).Nodup) (h : x ∈ tbl.map (·.1)) :
    bumpS tbl x = tbl.map fun kv => if kv.1 = x then (kv.1, kv.2 + 1) else kv := by
  induction tbl with
  | nil => simp at h
  | cons kv rest ih =>
    obtain ⟨k0, n⟩ := kv
    simp only [List.map_cons, List.nodup_cons] at hnd
    by_cases hk : k0 = x
    · subst hk
      simp only [bumpS, beq_self_eq_true, if_true, List.map_cons, if_pos rfl]
      have : ∀ kv ∈ rest, (if (kv : String × Int).1 = k0 then (kv.1, kv.2 + 1) else kv) = kv := by
        intro kv hkv
        have : kv.1 ≠ k0 := by
          intro he
          exact hnd.1 (he ▸ List.mem_map_of_mem (·.1) hkv)
        simp [this]
      rw [List.map_congr_left this]
      simp
    · simp only [List.map_cons, List.mem_cons] at h
      rcases h with h | h
      · exact absurd h.symm hk
      · have hbeq : (k0 == x) = false := by simp [hk]
        simp [bumpS, hbeq, hk, ih hnd.2 h]

theorem bumpS_of_not_mem (tbl : List (String × Int)) (x : String)
    (h : x ∉ tbl.map (·.1)) :
    bumpS tbl x = tbl ++ [(x, 1)] := by
  induction tbl with
  | nil => rfl
  | cons kv rest ih =>
    obtain ⟨k0, n⟩ := kv
    simp only [List.map_cons, List.mem_cons] at h
    push_neg at h
    have hne : k0 ≠ x := fun he => h.1 he.symm
    have hbeq : (k0 == x) = false := by simp [hne]
    simp [bumpS, hbeq, ih h.2]

theorem mem_dedupFirst (x : String) (ls : List String) :
    x ∈ dedupFirst ls ↔ x ∈ ls := by
  induction ls using dedupFirst.induct with
  | case1 => simp [dedupFirst]
  | case2 a xs ih =>
    rw [dedupFirst]
    by_cases hx : x = a
    · simp [hx]
    · simp only [List.mem_cons, ih, List.mem_filter]
      constructor
      · rintro (h | ⟨h, _⟩)
        · exact Or.inl h
        · exact Or.inr h
      · rintro (h | h)
        · exact Or.inl h
        · exact Or.inr ⟨h, by simp [hx]⟩

theorem dedupFirst_nodup (ls : List String) : (dedupFirst ls).Nodup := by
  induction ls using dedupFirst.induct with
  | case1 => simp [dedupFirst]
  | case2 a xs ih =>
    rw [dedupFirst]
    refine List.nodup_cons.mpr ⟨?_, ih⟩
    intro hmem
    have := (mem_dedupFirst a _).mp hmem
    simp [List.mem_filter] at this

theorem dedupFirst_append_single (ls : List String) (x : String) :
    dedupFirst (ls ++ [x])
      = if x ∈ ls then dedupFirst ls else dedupFirst ls ++ [x] := by
  induction ls using dedupFirst.induct with
  | case1 => simp [dedupFirst]
  | case2 a xs ih =>
    simp only [List.cons_append]
    rw [dedupFirst, dedupFirst]
    by_cases hx : x = a
    · subst hx
      simp only [List.mem_cons, true_or, if_true]
      congr 1
      rw [List.filter_append]
      simp
    · rw [List.filter_append]
      have : List.filter (fun y => y != a) [x] = [x] := by simp [hx]
      rw [this, ih]
      by_cases hmem : x ∈ xs
      · have h1 : x ∈ xs.filter (fun y => y != a) := by
          simp [List.mem_filter, hmem, hx]
        simp [hmem, h1, hx, List.mem_cons]
      · have h1 : x ∉ xs.filter (fun y => y != a) := by
          simp [List.mem_filter, hmem]
        simp [hmem, h1, hx, List.mem_cons]

theorem hasBlank_cons (c : Char) (l : List Char) :
    hasBlank (c :: l)
      = (((c == '\n') && (l.head? == some '\n')) || hasBlank l) := by
  rw [hasBlank.eq_def]
  split
  · rename_i heq
    injection heq with h1 h2
    subst h2
    simp [h1]
  · rename_i c0 rest hcond heqn
    injection heqn with h1 h2
    subst h1
    subst h2
    cases l with
    | nil => simp
    | cons d t =>
      by_cases hc : c = '\n'
      · by_cases hd : d = '\n'
        · cases hcond t hc (by rw [hd])
        · simp [hc, hd]
      · simp [hc]
  · rename_i heq
    simp at heq

theorem hasBlank_append (a b : List Char) :
    hasBlank (a ++ b)
      = (hasBlank a || hasBlank b ||
          ((a.getLast? == some '\n') && (b.head? == some '\n'))) := by
  induction a with
  | nil => simp [hasBlank]
  | cons c a ih =>
    rw [List.cons_append, hasBlank_cons, ih, hasBlank_cons]
    cases a with
    | nil =>
      simp only [List.nil_append, List.head?_nil, List.getLast?_nil,
        List.getLast?_singleton, hasBlank]
      cases hb : b.head? <;>
        simp [Bool.or_assoc, Bool.or_comm, Bool.or_left_comm]
    | cons d t =>
      simp only [List.cons_append, List.head?_cons, List.getLast?_cons_cons]
      cases hc : (c == '\n') <;> cases hd : (d == '\n') <;>
        simp [Bool.or_assoc, Bool.or_comm, Bool.or_left_comm]

theorem hasBlank_append_of (a b : List Char) (ha : hasBlank a = false)
    (hb : hasBlank b = false)
    (hbd : a.getLast? ≠ some '\n' ∨ b.head? ≠ some '\n') :
    hasBlank (a ++ b) = false := by
  rw [hasBlank_append, ha, hb]
  rcases hbd with h | h <;> simp [h]

theorem hasBlank_of_no_nl (l : List Char) (h : ∀ c ∈ l, c ≠ '\n') :
    hasBlank l = false := by
  induction l with
  | nil => rfl
  | cons c t ih =>
    rw [hasBlank_cons]
    have hc : c ≠ '\n' := h c (List.mem_cons_self c t)
    simp [hc, ih fun d hd => h d (List.mem_cons_of_mem c hd)]

theorem digitChar_ne_nl (k : Nat) : digitChar k ≠ '\n' := by
  unfold digitChar
  split <;> decide

theorem natToCharsGo_ne_nl (fuel n : Nat) (acc : List Char)
    (hacc : ∀ c ∈ acc, c ≠ '\n') :
    ∀ c ∈ natToCharsGo fuel n acc, c ≠ '\n' := by
  induction fuel generalizing n acc with
  | zero => exact hacc
  | succ fuel ih =>
    rw [natToCharsGo]
    split
    · intro c hc
      rcases List.mem_cons.mp hc with h | h
      · exact h ▸ digitChar_ne_nl n
      · exact hacc c h
    · refine ih (n / 10) _ ?_
      intro c hc
      rcases List.mem_cons.mp hc with h | h
      · exact h ▸ digitChar_ne_nl (n % 10)
      · exact hacc c h

theorem pyIntStr_ne_nl (n : Int) : ∀ c ∈ (pyIntStr n).data, c ≠ '\n' := by
  unfold pyIntStr natToChars
  split
  · intro c hc
    rcases List.mem_cons.mp hc with h | h
    · subst h; decide
    · exact natToCharsGo_ne_nl _ _ [] (by simp) c h
  · exact natToCharsGo_ne_nl _ _ [] (by simp)

theorem hasBlank_pyIntStr (n : Int) : hasBlank (pyIntStr n).data = false :=
  hasBlank_of_no_nl _ (pyIntStr_ne_nl n)

theorem splitBlank_two_nl (rest : List Char) :
    splitBlank ('\n' :: '\n' :: rest) = [] :: splitBlank rest := rfl

theorem splitBlank_cons_ne (c : Char) (rest : List Char)
    (h : ¬(c = '\n' ∧ rest.head? = some '\n')) :
    splitBlank (c :: rest) = consHead c (splitBlank rest) := by
  rw [splitBlank.eq_def]
  split
  · rename_i heq
    simp at heq
  · rename_i tail heq
    injection heq with h1 h2
    exact absurd ⟨h1, by rw [h2]; rfl⟩ h
  · rename_i c0 rest0 hcond heqn
    injection heqn with h1 h2
    subst h1; subst h2
    rfl

/-- Splitting a chunk with no blank and no trailing newline off the front. -/
theorem splitBlank_append_blank (p rest : List Char)
    (hnb : hasBlank p = false) (hlast : p.getLast? ≠ some '\n') :
    splitBlank (p ++ '\n' :: '\n' :: rest) = p :: splitBlank rest := by
  induction p with
  | nil => simpa using splitBlank_two_nl rest
  | cons c p ih =>
    rw [hasBlank_cons] at hnb
    have hnb2 : hasBlank p = false := by
      cases h1 : hasBlank p
      · rfl
      · rw [h1] at hnb; simp at hnb
    cases p with
    | nil =>
      have hc : c ≠ '\n' := by simpa using hlast
      rw [List.cons_append, List.nil_append,
        splitBlank_cons_ne c _ (fun hx => hc hx.1), splitBlank_two_nl]
      rfl
    | cons d t =>
      have hlast2 : (d :: t).getLast? ≠ some '\n' := by
        rwa [List.getLast?_cons_cons] at hlast
      have hcd : ¬(c = '\n' ∧ (d :: t ++ '\n' :: '\n' :: rest).head? = some '\n') := by
        rintro ⟨hc, hd⟩
        simp only [List.cons_append, List.head?_cons, Option.some.injEq] at hd
        rw [hc, hd] at hnb
        simp at hnb
      rw [List.cons_append, splitBlank_cons_ne c _ hcd, ih hnb2 hlast2]
      rfl

theorem splitBlank_ne_nil (l : List Char) : splitBlank l ≠ [] := by
  induction l with
  | nil => simp [splitBlank]
  | cons c rest ih =>
    by_cases h : c = '\n' ∧ rest.head? = some '\n'
    · obtain ⟨hc, hd⟩ := h
      subst hc
      cases rest with
      | nil => simp at hd
      | cons d t =>
        simp only [List.head?_cons, Option.some.injEq] at hd
        subst hd
        rw [splitBlank_two_nl]
        simp
    · rw [splitBlank_cons_ne c rest h]
      cases hs : splitBlank rest with
      | nil => exact absurd hs ih
      | cons q qs => simp [consHead]

theorem head?_append_of_ne_nil (a b : List Char) (ha : a ≠ []) :
    (a ++ b).head? = a.head? := by
  cases a with
  | nil => exact absurd rfl ha
  | cons c t => rfl

theorem append_ne_nil_right (a b : List Char) (hb : b ≠ []) : a ++ b ≠ [] :=
  fun h => hb (List.append_eq_nil.mp h).2

theorem getLast?_append_right (a b : List Char) (hb : b ≠ []) :
    (a ++ b).getLast? = b.getLast? := by
  rw [List.getLast?_eq_head?_reverse, List.reverse_append,
    head?_append_of_ne_nil _ _ (by simpa using hb),
    ← List.getLast?_eq_head?_reverse]

/-- A chunk with no blank line, in particular each single piece of the
fallback paragraphs, splits into itself. -/
theorem splitBlank_no_blank (l : List Char) (h : hasBlank l = false) :
    splitBlank l = [l] := by
  induction l with
  | nil => rfl
  | cons c rest ih =>
    rw [hasBlank_cons] at h
    have hr : hasBlank rest = false := by
      cases hx : hasBlank rest
      · rfl
      · rw [hx] at h; simp at h
    have hcnd : ¬(c = '\n' ∧ rest.head? = some '\n') := by
      rintro ⟨hc, hd⟩
      rw [hc, hd] at h
      simp at h
    rw [splitBlank_cons_ne c rest hcnd, ih hr]
    rfl

theorem hasBlank_roastPara1 (u : String) (pr fo : Json) (st : Int)
    (hu : hasBlank u.data = false) (hpr : hasBlank (pyStr pr).data = false)
    (hfo : hasBlank (pyStr fo).data = false) :
    hasBlank (roastPara1 u pr fo st).data = false := by
  unfold roastPara1
  simp only [String.data_append, List.append_assoc]
  refine hasBlank_append_of _ _ (by decide) ?_ (Or.inl (by decide))
  refine hasBlank_append_of _ _ hu ?_
    (Or.inr (by rw [head?_append_of_ne_nil _ _ (by decide)]; decide))
  refine hasBlank_append_of _ _ (by decide) ?_ (Or.inl (by decide))
  refine hasBlank_append_of _ _ hpr ?_
    (Or.inr (by rw [head?_append_of_ne_nil _ _ (by decide)]; decide))
  refine hasBlank_append_of _ _ (by decide) ?_ (Or.inl (by decide))
  refine hasBlank_append_of _ _ hfo ?_
    (Or.inr (by rw [head?_append_of_ne_nil _ _ (by decide)]; decide))
  refine hasBlank_append_of _ _ (by decide) ?_ (Or.inl (by decide))
  refine hasBlank_append_of _ _ (by decide) ?_ (Or.inl (by decide))
  exact hasBlank_append_of _ _ (hasBlank_pyIntStr st) (by decide)
    (Or.inr (by decide))

theorem getLast?_roastPara1 (u : String) (pr fo : Json) (st : Int) :
    (roastPara1 u pr fo st).data.getLast? = some '.' := by
  unfold roastPara1
  simp only [String.data_append, List.append_assoc]
  rw [getLast?_append_right _ _ (append_ne_nil_right _ _
    (append_ne_nil_right _ _ (append_ne_nil_right _ _ (append_ne_nil_right _ _
    (append_ne_nil_right _ _ (append_ne_nil_right _ _ (append_ne_nil_right _ _
    (append_ne_nil_right _ _ (by decide)))))))))]
  rw [getLast?_append_right _ _ (append_ne_nil_right _ _
    (append_ne_nil_right _ _ (append_ne_nil_right _ _ (append_ne_nil_right _ _
    (append_ne_nil_right _ _ (append_ne_nil_right _ _ (append_ne_nil_right _ _
    (by decide))))))))]
  rw [getLast?_append_right _ _ (append_ne_nil_right _ _
    (append_ne_nil_right _ _ (append_ne_nil_right _ _ (append_ne_nil_right _ _
    (append_ne_nil_right _ _ (append_ne_nil_right _ _ (by decide)))))))]
  rw [getLast?_append_right _ _ (append_ne_nil_right _ _
    (append_ne_nil_right _ _ (append_ne_nil_right _ _ (append_ne_nil_right _ _
    (append_ne_nil_right _ _ (by decide))))))]
  rw [getLast?_append_right _ _ (append_ne_nil_right _ _
    (append_ne_nil_right _ _ (append_ne_nil_right _ _ (append_ne_nil_right _ _
    (by decide)))))]
  rw [getLast?_append_right _ _ (append_ne_nil_right _ _
    (append_ne_nil_right _ _ (append_ne_nil_right _ _ (by decide))))]
  rw [getLast?_append_right _ _ (append_ne_nil_right _ _
    (append_ne_nil_right _ _ (by decide)))]
  rw [getLast?_append_right _ _ (append_ne_nil_right _ _ (by decide))]
  rw [getLast?_append_right _ _ (by decide)]
  decide

theorem hasBlank_roastPara2 (summary : String)
    (hs : hasBlank summary.data = false) :
    hasBlank (roastPara2 summary).data = false := by
  unfold roastPara2
  simp only [String.data_append, List.append_assoc]
  refine hasBlank_append_of _ _ (by decide) ?_ (Or.inl (by decide))
  refine hasBlank_append_of _ _ hs ?_
    (Or.inr (by rw [head?_append_of_ne_nil _ _ (by decide)]; decide))
  exact hasBlank_append_of _ _ (by decide) (by decide) (Or.inl (by decide))

theorem getLast?_roastPara2 (summary : String) :
    (roastPara2 summary).data.getLast? = some '.' := by
  unfold roastPara2
  simp only [String.data_append, List.append_assoc]
  rw [getLast?_append_right _ _ (append_ne_nil_right _ _
    (append_ne_nil_right _ _ (by decide)))]
  rw [getLast?_append_right _ _ (append_ne_nil_right _ _ (by decide))]
  rw [getLast?_append_right _ _ (by decide)]
  decide

theorem splitBlank_fallback (p1 p2 p3 : List Char)
    (h1 : hasBlank p1 = false) (h2 : hasBlank p2 = false)
    (h3 : hasBlank p3 = false)
    (e1 : p1.getLast? ≠ some '\n') (e2 : p2.getLast? ≠ some '\n') :
    splitBlank (p1 ++ '\n' :: '\n' :: (p2 ++ '\n' :: '\n' :: p3))
      = [p1, p2, p3] := by
  rw [splitBlank_append_blank p1 _ h1 e1, splitBlank_append_blank p2 _ h2 e2,
    splitBlank_no_blank p3 h3]

/-- C6 (amended): for every username and shaped record such that the star
sum and language summary succeed (counts are numeric, languages hashable)
and the username, rendered follower/public-repo counts and language
summary contain no two consecutive newlines, the fallback roast is
exactly three non-empty paragraphs joined by single blank lines. -/
theorem claim6_fallback_three_paragraphs (username : String)
    (shaped : ShapedRecord) (stars : Int) (summary : String)
    (h1 : pySumStars shaped.repos = .ok stars)
    (h2 : langsSummary shaped.repos = .ok summary)
    (h3 : hasBlank username.data = false)
    (h4 : hasBlank (pyStr shaped.followers).data = false)
    (h5 : hasBlank (pyStr shaped.public_repos).data = false)
    (h6 : hasBlank summary.data = false) :
    fallback_rules_based_roast username shaped
      = .ok (roastPara1 username shaped.public_repos shaped.followers stars
          ++ "\n\n" ++ roastPara2 summary ++ "\n\n" ++ roastPara3) ∧
    isThreeParagraphs
        (roastPara1 username shaped.public_repos shaped.followers stars
          ++ "\n\n" ++ roastPara2 summary ++ "\n\n" ++ roastPara3) = true := by
  constructor
  · unfold fallback_rules_based_roast
    rw [h1, h2]
    rfl
  · unfold isThreeParagraphs
    have hnn : ("\n\n" : String).data = ['\n', '\n'] := rfl
    have hd : (roastPara1 username shaped.public_repos shaped.followers stars
          ++ "\n\n" ++ roastPara2 summary ++ "\n\n" ++ roastPara3).data
        = (roastPara1 username shaped.public_repos shaped.followers stars).data
            ++ '\n' :: '\n' :: ((roastPara2 summary).data
            ++ '\n' :: '\n' :: roastPara3.data) := by
      simp [String.data_append, hnn]
    have e1 : (roastPara1 username shaped.public_repos shaped.followers
        stars).data.getLast? ≠ some '\n' := by
      rw [getLast?_roastPara1]; decide
    have e2 : (roastPara2 summary).data.getLast? ≠ some '\n' := by
      rw [getLast?_roastPara2]; decide
    rw [hd, splitBlank_fallback _ _ _
      (hasBlank_roastPara1 username _ _ stars h3 h5 h4)
      (hasBlank_roastPara2 summary h6) (by decide) e1 e2]
    have p1ne : (roastPara1 username shaped.public_repos shaped.followers
        stars).data ≠ [] := by
      intro h
      have := getLast?_roastPara1 username shaped.public_repos
        shaped.followers stars
      rw [h] at this
      simp at this
    have p2ne : (roastPara2 summary).data ≠ [] := by
      intro h
      have := getLast?_roastPara2 summary
      rw [h] at this
      simp at this
    simp [p1ne, p2ne, List.isEmpty_iff]
    decide

set_option maxRecDepth 100000 in
/-- C6 (counterexample): a username containing a blank line makes the
first paragraph of the fallback roast contain a blank line itself, so the
output no longer consists of exactly three paragraphs — the claim fails
when quantified over every username string. -/
theorem claim6_counterexample :
    Except.map isThreeParagraphs
        (fallback_rules_based_roast "a\n\nb"
          ⟨Json.null, Json.null, Json.null, Json.null, Json.null,
           Json.num 0, Json.num 0, Json.num 0, Json.null, [], ""⟩)
      = .ok false := by
  rfl

/-- C6 (witness): the amended theorem evaluated at a concrete username
and the empty shaped record. -/
theorem claim6_witness :
    fallback_rules_based_roast "octo"
        ⟨Json.null, Json.null, Json.null, Json.null, Json.null,
         Json.num 0, Json.num 0, Json.num 0, Json.null, [], ""⟩
      = .ok (roastPara1 "octo" (Json.num 0) (Json.num 0) 0 ++ "\n\n" ++
          roastPara2 "None" ++ "\n\n" ++ roastPara3) ∧
    isThreeParagraphs (roastPara1 "octo" (Json.num 0) (Json.num 0) 0
        ++ "\n\n" ++ roastPara2 "None" ++ "\n\n" ++ roastPara3) = true :=
  claim6_fallback_three_paragraphs "octo" _ 0 "None" rfl rfl
    (by decide) (by decide) (by decide) (by decide)

/-- Python `str.startswith` modelled on the character lists. -/
def pyStartsWith (s pre : String) : Bool :=
  pre.data.isPrefixOf s.data

/-- Is the first character, if any, a non-whitespace character? -/
def headOkB (p : List Char) : Bool :=
  match p.head? with
  | some c => !isPyWs c
  | none => true

/-- The preamble phrases of server.py lines 221-224. -/
def preambles : List String :=
  ["sure,", "here is", "here's", "here are", "okay,", "ok,", "i can",
   "i will", "let's", "so,", "as an ai", "disclaimer", "note:"]

/-- Python `str.lower()` (ASCII part, see `pyLowerL`). -/
def pyLower (s : String) : String :=
  ⟨pyLowerL s.data⟩

/-- The backtick character (code 96). -/
def btick : Char := Char.ofNat 96

/-- Python `str.strip` of backticks from both ends (line 217). -/
def stripBackticks (s : String) : String :=
  ⟨stripRightBy (fun c => c = btick) (stripLeftBy (fun c => c = btick) s.data)⟩

/-- The preamble-removal loop of lines 227-236: drop every line up to and
including the first whitespace-only line; if none is blank, nothing
survives. -/
def dropThroughBlank : List (List Char) → List (List Char)
  | [] => []
  | line :: rest => if pyStripL line = [] then rest else dropThroughBlank rest

/-- The filler paragraph of line 255. -/
def fillerText : String := "Not enough content to roast properly."

/-- Stage: `[p.strip() for p in text.split("\n\n") if p.strip()]` (line 240). -/
def normStage3 (text3 : List Char) : List (List Char) :=
  ((splitBlank text3).map pyStripL).filter (· ≠ [])

/-- Stage: re-split every paragraph on single newlines (lines 247-250). -/
def normExpand (ps : List (List Char)) : List (List Char) :=
  ps.flatMap fun p => ((splitNl p).map pyStripL).filter (· ≠ [])

/-- Stage: enforce at most three paragraphs (lines 243-251). -/
def normSelect (ps : List (List Char)) : List (List Char) :=
  if ps.length > 3 then ps.take 3
  else if ps.length < 3 then
    (if (normExpand ps).length ≥ 3 then (normExpand ps).take 3 else ps)
  else ps

/-- Stage: pad with the filler to three paragraphs and keep the first
three (lines 254-257). -/
def normPad (ps : List (List Char)) : List (List Char) :=
  (ps ++ List.replicate (3 - ps.length) fillerText.data).take 3

/-- Stage: split into stripped non-empty paragraphs, enforce three, pad,
join with blank lines (lines 238-257, after the newline normalization). -/
def normAssemble (t3 : List Char) : String :=
  ⟨List.intercalate ['\n', '\n'] (normPad (normSelect (normStage3 t3)))⟩

/-- Model of `normalize_roast_output` (server.py lines 210-257). -/
def normalize_roast_output (text : String) : String :=
  if text = "" then text
  else
    let t1 := if pyStartsWith (pyStrip text) "```" then stripBackticks (pyStrip text)
      else text
    let t2 :=
      if preambles.any (fun p => pyStartsWith (pyLower (pyLStrip t1)) p) then
        let tj := pyStrip ⟨List.intercalate ['\n'] (dropThroughBlank (splitLinesPy t1.data))⟩
        if tj = "" then t1 else tj
      else t1
    normAssemble (pyStripL (replaceCr (replaceCrLf t2.data)))

/-- Is the last character, if any, a non-whitespace character? -/
def lastOkB (p : List Char) : Bool :=
  match p.getLast? with
  | some c => !isPyWs c
  | none => true

/-- A well-formed output paragraph: non-empty, no blank line inside, and
not ending in whitespace (in particular not in a newline). -/
def goodPara (p : List Char) : Prop :=
  p ≠ [] ∧ hasBlank p = false ∧ lastOkB p = true

theorem lastOk_ne_nl (p : List Char) (h : lastOkB p = true) :
    p.getLast? ≠ some '\n' := by
  unfold lastOkB at h
  intro hc
  rw [hc] at h
  simp [isPyWs] at h

theorem splitNl_nl (rest : List Char) :
    splitNl ('\n' :: rest) = [] :: splitNl rest := rfl

theorem splitNl_cons_ne (c : Char) (rest : List Char) (h : c ≠ '\n') :
    splitNl (c :: rest) = consHead c (splitNl rest) := by
  rw [splitNl.eq_def]
  split
  · rename_i heq
    simp at heq
  · rename_i tail heq
    injection heq with h1 h2
    exact absurd h1 h
  · rename_i c0 rest0 hcond heqn
    injection heqn with h1 h2
    subst h1; subst h2
    rfl

theorem splitNl_ne_nil (l : List Char) : splitNl l ≠ [] := by
  induction l with
  | nil => simp [splitNl]
  | cons c rest ih =>
    by_cases h : c = '\n'
    · subst h
      rw [splitNl_nl]
      simp
    · rw [splitNl_cons_ne c rest h]
      cases hs : splitNl rest with
      | nil => exact absurd hs ih
      | cons q qs => simp [consHead]

theorem splitNl_parts_no_nl (l : List Char) :
    ∀ p ∈ splitNl l, ∀ c ∈ p, c ≠ '\n' := by
  induction l with
  | nil =>
    intro p hp
    simp [splitNl] at hp
    subst hp
    simp
  | cons c rest ih =>
    by_cases h : c = '\n'
    · subst h
      rw [splitNl_nl]
      intro p hp
      rcases List.mem_cons.mp hp with h | h
      · subst h; simp
      · exact ih p h
    · rw [splitNl_cons_ne c rest h]
      cases hs : splitNl rest with
      | nil => exact absurd hs (splitNl_ne_nil rest)
      | cons q qs =>
        intro p hp
        simp only [consHead, List.mem_cons] at hp
        rcases hp with h1 | h1
        · subst h1
          intro d hd
          rcases List.mem_cons.mp hd with h2 | h2
          · exact h2 ▸ h
          · exact ih q (hs ▸ List.mem_cons_self q qs) d h2
        · exact ih p (hs ▸ List.mem_cons_of_mem q h1)

/-- The first chunk of a split starts where the input starts. -/
theorem splitBlank_head_head (l q : List Char) (qs : List (List Char))
    (hs : splitBlank l = q :: qs) (c : Char) (hq : q.head? = some c) :
    l.head? = some c := by
  cases l with
  | nil =>
    simp [splitBlank] at hs
    obtain ⟨h1, h2⟩ := hs
    subst h1
    simp at hq
  | cons a rest =>
    by_cases h : a = '\n' ∧ rest.head? = some '\n'
    · obtain ⟨ha, hd⟩ := h
      subst ha
      cases rest with
      | nil => simp at hd
      | cons d t =>
        simp only [List.head?_cons, Option.some.injEq] at hd
        subst hd
        rw [splitBlank_two_nl] at hs
        injection hs with h1 h2
        rw [← h1] at hq
        simp at hq
    · rw [splitBlank_cons_ne a rest h] at hs
      cases hr : splitBlank rest with
      | nil => exact absurd hr (splitBlank_ne_nil rest)
      | cons q0 qs0 =>
        rw [hr] at hs
        simp only [consHead] at hs
        injection hs with h1 h2
        rw [← h1] at hq
        simp only [List.head?_cons, Option.some.injEq] at hq
        subst hq
        rfl

theorem splitBlank_parts_no_blank (l : List Char) :
    ∀ p ∈ splitBlank l, hasBlank p = false := by
  induction l using splitBlank.induct with
  | case1 =>
    intro p hp
    simp [splitBlank] at hp
    subst hp
    rfl
  | case2 rest ih =>
    rw [splitBlank_two_nl]
    intro p hp
    rcases List.mem_cons.mp hp with h1 | h1
    · subst h1; rfl
    · exact ih p h1
  | case3 c rest hcond ih =>
    have hne : ¬(c = '\n' ∧ rest.head? = some '\n') := by
      rintro ⟨hc, hh⟩
      cases rest with
      | nil => simp at hh
      | cons d t =>
        simp only [List.head?_cons, Option.some.injEq] at hh
        exact hcond t hc (by rw [hh])
    rw [splitBlank_cons_ne c rest hne]
    cases hr : splitBlank rest with
    | nil => exact absurd hr (splitBlank_ne_nil rest)
    | cons q qs =>
      intro p hp
      simp only [consHead, List.mem_cons] at hp
      rcases hp with h1 | h1
      · subst h1
        rw [hasBlank_cons]
        have hq : hasBlank q = false := ih q (hr ▸ List.mem_cons_self q qs)
        rcases Decidable.em (c = '\n') with hc | hc
        · have hqh : q.head? ≠ some '\n' := by
            intro hx
            exact hne ⟨hc, splitBlank_head_head rest q qs hr '\n' hx⟩
          simp [hq, hqh]
        · simp [hq, hc]
      · exact ih p (hr ▸ List.mem_cons_of_mem q h1)

theorem stripRightBy_prefix (p : Char → Bool) (l : List Char) :
    stripRightBy p l <+: l := by
  induction l with
  | nil => simp [stripRightBy]
  | cons c t ih =>
    cases hs : stripRightBy p t with
    | nil =>
      by_cases hc : p c
      · simp only [stripRightBy, hs, hc, if_true]
        exact List.nil_prefix
      · simp only [stripRightBy, hs, hc, if_false]
        exact ⟨t, rfl⟩
    | cons d t0 =>
      simp only [stripRightBy, hs]
      exact (List.prefix_cons_inj c).mpr (hs ▸ ih)

theorem dropWhile_suffix_self (p : Char → Bool) (l : List Char) :
    l.dropWhile p <:+ l := by
  induction l with
  | nil => simp
  | cons c t ih =>
    rw [List.dropWhile_cons]
    by_cases hc : p c
    · simp only [hc, if_true]
      exact ih.trans (List.suffix_cons c t)
    · simp [hc]

theorem hasBlank_of_prefix (a b : List Char) (h : a <+: b)
    (hb : hasBlank b = false) : hasBlank a = false := by
  obtain ⟨t, rfl⟩ := h
  rw [hasBlank_append] at hb
  cases hx : hasBlank a
  · rfl
  · rw [hx] at hb; simp at hb

theorem hasBlank_of_suffix (a b : List Char) (h : a <:+ b)
    (hb : hasBlank b = false) : hasBlank a = false := by
  obtain ⟨t, rfl⟩ := h
  rw [hasBlank_append] at hb
  cases hx : hasBlank a
  · rfl
  · rw [hx] at hb; simp at hb

theorem hasBlank_pyStripL (l : List Char) (h : hasBlank l = false) :
    hasBlank (pyStripL l) = false := by
  unfold pyStripL
  exact hasBlank_of_prefix _ _ ( stripRightBy_prefix _ _)
    (hasBlank_of_suffix _ _ (dropWhile_suffix_self _ _) h)

theorem stripRightBy_lastOk (p : Char → Bool) (l : List Char)
    (hne : stripRightBy p l ≠ []) :
    ∀ c, (stripRightBy p l).getLast? = some c → p c = false := by
  induction l with
  | nil => simp [stripRightBy] at hne
  | cons c0 t ih =>
    cases hs : stripRightBy p t with
    | nil =>
      by_cases hc : p c0
      · simp only [stripRightBy, hs, hc, if_true] at hne
        exact absurd rfl hne
      · intro c hcl
        simp only [stripRightBy, hs] at hcl
        rw [if_neg hc] at hcl
        simp only [List.getLast?_singleton, Option.some.injEq] at hcl
        subst hcl
        simpa using hc
    | cons d t0 =>
      intro c hcl
      simp only [stripRightBy, hs] at hcl
      rw [List.getLast?_cons_cons] at hcl
      refine ih (by simp [hs]) c ?_
      rw [hs]
      exact hcl

theorem pyStripL_lastOk (l : List Char) (hne : pyStripL l ≠ []) :
    lastOkB (pyStripL l) = true := by
  unfold pyStripL at hne ⊢
  unfold lastOkB
  cases hl : (stripRightBy isPyWs (stripLeftBy isPyWs l)).getLast? with
  | none => rfl
  | some c =>
    simp only [Bool.not_eq_true']
    exact stripRightBy_lastOk _ _ hne c hl

theorem pyStripL_subset (l : List Char) : pyStripL l ⊆ l := by
  unfold pyStripL
  exact ( stripRightBy_prefix _ _).subset.trans
    (dropWhile_suffix_self _ _).subset

/-- Every surviving chunk of the paragraph-splitting stage is a good
paragraph. -/
theorem normStage3_good (l : List Char) :
    ∀ p ∈ normStage3 l, goodPara p := by
  intro p hp
  unfold normStage3 at hp
  rw [List.mem_filter] at hp
  obtain ⟨hp1, hp2⟩ := hp
  obtain ⟨q, hq, rfl⟩ := List.mem_map.mp hp1
  have hqnb : hasBlank q = false := splitBlank_parts_no_blank l q hq
  have hne : pyStripL q ≠ [] := by simpa using hp2
  exact ⟨hne, hasBlank_pyStripL q hqnb, pyStripL_lastOk q hne⟩

/-- Every chunk of the single-newline expansion stage is a good
paragraph. -/
theorem normExpand_good (ps : List (List Char)) :
    ∀ p ∈ normExpand ps, goodPara p := by
  intro p hp
  unfold normExpand at hp
  obtain ⟨q, _, hq2⟩ := List.mem_flatMap.mp hp
  rw [List.mem_filter] at hq2
  obtain ⟨hq1, hqne⟩ := hq2
  obtain ⟨r, hr, rfl⟩ := List.mem_map.mp hq1
  have hne : pyStripL r ≠ [] := by simpa using hqne
  have hnl : ∀ c ∈ pyStripL r, c ≠ '\n' :=
    fun c hc => splitNl_parts_no_nl q r hr c (pyStripL_subset r hc)
  exact ⟨hne, hasBlank_of_no_nl _ hnl, pyStripL_lastOk r hne⟩

theorem normSelect_good (ps : List (List Char)) (h : ∀ p ∈ ps, goodPara p) :
    (∀ p ∈ normSelect ps, goodPara p) ∧ (normSelect ps).length ≤ 3 := by
  unfold normSelect
  by_cases h3 : ps.length > 3
  · simp only [h3, if_true]
    exact ⟨fun p hp => h p (List.take_subset 3 ps hp), List.length_take_le 3 ps⟩
  · simp only [h3, if_false]
    by_cases hlt : ps.length < 3
    · simp only [hlt, if_true]
      by_cases hexp : (normExpand ps).length ≥ 3
      · simp only [hexp, if_true]
        exact ⟨fun p hp => normExpand_good ps p (List.take_subset 3 _ hp),
          List.length_take_le 3 _⟩
      · simp only [hexp, if_false]
        exact ⟨h, by omega⟩
    · simp only [hlt, if_false]
      exact ⟨h, by omega⟩

theorem fillerText_good : goodPara fillerText.data := by
  refine ⟨?_, ?_, ?_⟩ <;> decide

theorem normPad_shape (ps : List (List Char)) (hlen : ps.length ≤ 3)
    (h : ∀ p ∈ ps, goodPara p) :
    ∃ a b c, normPad ps = [a, b, c] ∧ goodPara a ∧ goodPara b ∧ goodPara c := by
  match ps, hlen with
  | [], _ =>
    exact ⟨_, _, _, rfl, fillerText_good, fillerText_good, fillerText_good⟩
  | [a], _ =>
    exact ⟨a, _, _, rfl, h a (by simp), fillerText_good, fillerText_good⟩
  | [a, b], _ =>
    exact ⟨a, b, _, rfl, h a (by simp), h b (by simp), fillerText_good⟩
  | [a, b, c], _ =>
    exact ⟨a, b, c, rfl, h a (by simp), h b (by simp), h c (by simp)⟩
  | a :: b :: c :: d :: t, hlen => simp at hlen

theorem intercalate_three (a b c sep : List Char) :
    List.intercalate sep [a, b, c] = a ++ (sep ++ (b ++ (sep ++ c))) := by
  simp [List.intercalate, List.intersperse]

/-- Joining three good paragraphs with blank lines satisfies the
three-paragraph output contract. -/
theorem isThree_of_good (a b c : List Char) (ga : goodPara a)
    (gb : goodPara b) (gc : goodPara c) :
    isThreeParagraphs ⟨List.intercalate ['\n', '\n'] [a, b, c]⟩ = true := by
  unfold isThreeParagraphs
  rw [intercalate_three]
  show ((splitBlank (a ++ '\n' :: '\n' :: (b ++ '\n' :: '\n' :: c))).length == 3
    && (splitBlank (a ++ '\n' :: '\n' :: (b ++ '\n' :: '\n' :: c))).all
      (fun p => !p.isEmpty)) = true
  rw [splitBlank_fallback a b c ga.2.1 gb.2.1 gc.2.1
    (lastOk_ne_nl a ga.2.2) (lastOk_ne_nl b gb.2.2)]
  simp [ga.1, gb.1, gc.1, List.isEmpty_iff]

/-- Whatever the text going into the paragraph stage, the assembled
output is exactly three good paragraphs. -/
theorem normAssemble_isThree (t3 : List Char) :
    isThreeParagraphs (normAssemble t3) = true := by
  unfold normAssemble
  have hsel := normSelect_good (normStage3 t3) (normStage3_good t3)
  obtain ⟨a, b, c, heq, g1, g2, g3⟩ := normPad_shape _ hsel.2 hsel.1
  rw [heq]
  exact isThree_of_good a b c g1 g2 g3

/-- C1 (amended): for every non-empty input, `normalize_roast_output`
returns exactly three non-empty paragraphs separated by one blank line
(the function is total; the empty string, however, is returned as-is by
the guard at lines 212-213, which is the correction to the claim). -/
theorem claim1_normalize_three_paragraphs (s : String) (hs : s ≠ "") :
    isThreeParagraphs (normalize_roast_output s) = true := by
  unfold normalize_roast_output
  rw [if_neg hs]
  exact normAssemble_isThree _

/-- C1 (counterexample): the empty string is returned unchanged by the
guard at the top of `normalize_roast_output`, so it is not normalized to
three paragraphs — the claim fails exactly on the empty string. -/
theorem claim1_counterexample :
    normalize_roast_output "" = "" ∧ isThreeParagraphs "" = false :=
  ⟨rfl, rfl⟩

/-- C1 (witness): the amended theorem evaluated on a one-character
input. -/
theorem claim1_witness :
    isThreeParagraphs (normalize_roast_output "x") = true :=
  claim1_normalize_three_paragraphs "x" (by decide)

theorem headOk_elim (l : List Char) (h : headOkB l = true) :
    ∀ c, l.head? = some c → isPyWs c = false := by
  intro c hc
  unfold headOkB at h
  rw [hc] at h
  simpa using h

theorem lastOk_elim (l : List Char) (h : lastOkB l = true) :
    ∀ c, l.getLast? = some c → isPyWs c = false := by
  intro c hc
  unfold lastOkB at h
  rw [hc] at h
  simpa using h

theorem stripLeftBy_eq_self (p : Char → Bool) (l : List Char)
    (hh : ∀ c, l.head? = some c → p c = false) : stripLeftBy p l = l := by
  cases l with
  | nil => rfl
  | cons c t =>
    unfold stripLeftBy
    rw [List.dropWhile_cons, if_neg]
    simp [hh c rfl]

theorem stripRightBy_cons (p : Char → Bool) (c : Char) (t : List Char) :
    stripRightBy p (c :: t)
      = match stripRightBy p t with
        | [] => if p c then [] else [c]
        | d :: t0 => c :: d :: t0 := rfl

theorem stripRightBy_eq_self (p : Char → Bool) (l : List Char)
    (hl : ∀ c, l.getLast? = some c → p c = false) : stripRightBy p l = l := by
  induction l with
  | nil => rfl
  | cons c t ih =>
    cases t with
    | nil =>
      have hc : p c = false := hl c rfl
      simp [stripRightBy, hc]
    | cons d t0 =>
      have hih : stripRightBy p (d :: t0) = d :: t0 :=
        ih fun c0 hc0 => hl c0 (by rw [List.getLast?_cons_cons]; exact hc0)
      rw [stripRightBy_cons, hih]

theorem pyStripL_eq_self (l : List Char) (hh : headOkB l = true)
    (hl : lastOkB l = true) : pyStripL l = l := by
  unfold pyStripL
  rw [stripLeftBy_eq_self _ _ (headOk_elim l hh),
    stripRightBy_eq_self _ _ (lastOk_elim l hl)]

theorem replaceCrLf_cons_ne (c : Char) (rest : List Char) (h : c ≠ '\r') :
    replaceCrLf (c :: rest) = c :: replaceCrLf rest := by
  rw [replaceCrLf.eq_def]
  split
  · rename_i heq
    simp at heq
  · rename_i tail heq
    injection heq with h1 h2
    exact absurd h1 h
  · rename_i c0 rest0 hcond heqn
    injection heqn with h1 h2
    subst h1; subst h2
    rfl

theorem replaceCrLf_of_no_cr (l : List Char) (h : ∀ c ∈ l, c ≠ '\r') :
    replaceCrLf l = l := by
  induction l with
  | nil => rfl
  | cons c t ih =>
    rw [replaceCrLf_cons_ne c t (h c (List.mem_cons_self c t)),
      ih fun d hd => h d (List.mem_cons_of_mem c hd)]

theorem replaceCr_of_no_cr (l : List Char) (h : ∀ c ∈ l, c ≠ '\r') :
    replaceCr l = l := by
  unfold replaceCr
  have hcongr : ∀ c ∈ l, (if c = '\r' then '\n' else c) = c :=
    fun c hc => by simp [h c hc]
  rw [List.map_congr_left hcongr]
  simp

theorem prefix_append_cases {pre a b : List Char} (h : pre <+: a ++ b) :
    pre <+: a ∨ ∃ pre2, pre = a ++ pre2 ∧ pre2 <+: b := by
  rcases List.prefix_or_prefix_of_prefix h (List.prefix_append a b) with h1 | h1
  · exact Or.inl h1
  · right
    obtain ⟨t, rfl⟩ := h1
    refine ⟨t, rfl, ?_⟩
    exact (List.prefix_append_right_inj a).mp h

/-- A newline-free pattern that does not start a paragraph cannot start
the paragraph followed by a newline and anything else. -/
theorem not_prefix_of_boundary (pre p1 rest : List Char)
    (hnp : pre.isPrefixOf p1 = false) (hnl : ∀ c ∈ pre, c ≠ '\n') :
    pre.isPrefixOf (p1 ++ '\n' :: rest) = false := by
  rw [← Bool.not_eq_true, List.isPrefixOf_iff_prefix]
  intro hp
  rcases prefix_append_cases hp with h1 | ⟨pre2, rfl, h2⟩
  · rw [← List.isPrefixOf_iff_prefix] at h1
    rw [h1] at hnp
    simp at hnp
  · cases pre2 with
    | nil =>
      have htrue : (p1 ++ ([] : List Char)).isPrefixOf p1 = true := by
        rw [List.append_nil]
        exact List.isPrefixOf_iff_prefix.mpr List.prefix_rfl
      rw [htrue] at hnp
      simp at hnp
    | cons d t =>
      obtain ⟨s, hs⟩ := h2
      injection hs with hd hs2
      exact hnl d (List.mem_append_right p1 (List.mem_cons_self d t)) hd

/-- A clean paragraph in the sense of claim C9: non-empty, no blank line
inside, not starting or ending with whitespace, no carriage returns. -/
def CleanPara (p : String) : Prop :=
  p.data ≠ [] ∧ hasBlank p.data = false ∧ headOkB p.data = true ∧
  lastOkB p.data = true ∧ ∀ c ∈ p.data, c ≠ '\r'

theorem normAssemble_fixed (p1 p2 p3 : List Char)
    (n1 : p1 ≠ []) (n2 : p2 ≠ []) (n3 : p3 ≠ [])
    (b1 : hasBlank p1 = false) (b2 : hasBlank p2 = false)
    (b3 : hasBlank p3 = false)
    (hh1 : headOkB p1 = true) (hl1 : lastOkB p1 = true)
    (hh2 : headOkB p2 = true) (hl2 : lastOkB p2 = true)
    (hh3 : headOkB p3 = true) (hl3 : lastOkB p3 = true) :
    normAssemble (p1 ++ '\n' :: '\n' :: (p2 ++ '\n' :: '\n' :: p3))
      = ⟨p1 ++ '\n' :: '\n' :: (p2 ++ '\n' :: '\n' :: p3)⟩ := by
  unfold normAssemble normStage3
  rw [splitBlank_fallback p1 p2 p3 b1 b2 b3 (lastOk_ne_nl p1 hl1)
    (lastOk_ne_nl p2 hl2)]
  have e1 : pyStripL p1 = p1 := pyStripL_eq_self p1 hh1 hl1
  have e2 : pyStripL p2 = p2 := pyStripL_eq_self p2 hh2 hl2
  have e3 : pyStripL p3 = p3 := pyStripL_eq_self p3 hh3 hl3
  simp only [List.map_cons, List.map_nil, e1, e2, e3]
  rw [List.filter_cons_of_pos (by simpa using n1),
    List.filter_cons_of_pos (by simpa using n2),
    List.filter_cons_of_pos (by simpa using n3), List.filter_nil]
  unfold normSelect normPad
  norm_num
  rw [intercalate_three]
  simp

/-- The normalizer fixes any text that is already three clean paragraphs
with no code fence and no leading preamble phrase. -/
theorem normalize_fixed (p1 p2 p3 : String)
    (h1 : CleanPara p1) (h2 : CleanPara p2) (h3 : CleanPara p3)
    (hf : pyStartsWith p1 "```" = false)
    (hpre : ∀ pre ∈ preambles, pyStartsWith (pyLower p1) pre = false) :
    normalize_roast_output (p1 ++ "\n\n" ++ p2 ++ "\n\n" ++ p3)
      = p1 ++ "\n\n" ++ p2 ++ "\n\n" ++ p3 := by
  obtain ⟨n1, b1, hh1, hl1, r1⟩ := h1
  obtain ⟨n2, b2, hh2, hl2, r2⟩ := h2
  obtain ⟨n3, b3, hh3, hl3, r3⟩ := h3
  have hdata : (p1 ++ "\n\n" ++ p2 ++ "\n\n" ++ p3).data
      = p1.data ++ '\n' :: '\n' :: (p2.data ++ '\n' :: '\n' :: p3.data) := by
    have hnn : ("\n\n" : String).data = ['\n', '\n'] := rfl
    simp [String.data_append, hnn]
  have hx : (p1 ++ "\n\n" ++ p2 ++ "\n\n" ++ p3) ≠ "" := by
    intro h
    have := congrArg String.data h
    rw [hdata] at this
    simp only [String.data] at this
    exact n1 (List.append_eq_nil.mp this).1
  have hhead : (p1 ++ "\n\n" ++ p2 ++ "\n\n" ++ p3).data.head? = p1.data.head? := by
    rw [hdata]
    exact head?_append_of_ne_nil _ _ n1
  have hlast : (p1 ++ "\n\n" ++ p2 ++ "\n\n" ++ p3).data.getLast?
      = p3.data.getLast? := by
    rw [hdata]
    rw [show p1.data ++ '\n' :: '\n' :: (p2.data ++ '\n' :: '\n' :: p3.data)
        = (p1.data ++ ['\n', '\n'] ++ p2.data ++ ['\n', '\n']) ++ p3.data
      from by simp]
    exact getLast?_append_right _ _ n3
  have hheadOk : headOkB (p1 ++ "\n\n" ++ p2 ++ "\n\n" ++ p3).data = true := by
    unfold headOkB
    rw [hhead]
    cases hc : p1.data.head? with
    | none => rfl
    | some c => simp [headOk_elim p1.data hh1 c hc]
  have hlastOk : lastOkB (p1 ++ "\n\n" ++ p2 ++ "\n\n" ++ p3).data = true := by
    unfold lastOkB
    rw [hlast]
    cases hc : p3.data.getLast? with
    | none => rfl
    | some c => simp [lastOk_elim p3.data hl3 c hc]
  have hstrip : pyStripL (p1 ++ "\n\n" ++ p2 ++ "\n\n" ++ p3).data
      = (p1 ++ "\n\n" ++ p2 ++ "\n\n" ++ p3).data :=
    pyStripL_eq_self _ hheadOk hlastOk
  have hstripS : pyStrip (p1 ++ "\n\n" ++ p2 ++ "\n\n" ++ p3)
      = p1 ++ "\n\n" ++ p2 ++ "\n\n" ++ p3 := by
    unfold pyStrip
    rw [hstrip]
  have hlstripS : pyLStrip (p1 ++ "\n\n" ++ p2 ++ "\n\n" ++ p3)
      = p1 ++ "\n\n" ++ p2 ++ "\n\n" ++ p3 := by
    unfold pyLStrip
    rw [stripLeftBy_eq_self _ _ fun c hc => headOk_elim _ hheadOk c hc]
  have hfence : pyStartsWith (pyStrip (p1 ++ "\n\n" ++ p2 ++ "\n\n" ++ p3))
      "```" = false := by
    rw [hstripS]
    unfold pyStartsWith
    rw [hdata]
    exact not_prefix_of_boundary _ _ _ (by unfold pyStartsWith at hf; exact hf)
      (by decide)
  have hlower : (pyLower (p1 ++ "\n\n" ++ p2 ++ "\n\n" ++ p3)).data
      = pyLowerL p1.data ++ '\n' :: '\n'
        :: (pyLowerL (p2.data ++ '\n' :: '\n' :: p3.data)) := by
    unfold pyLower pyLowerL
    rw [hdata]
    simp
  have hpre' : preambles.any (fun p =>
      pyStartsWith (pyLower (pyLStrip (p1 ++ "\n\n" ++ p2 ++ "\n\n" ++ p3))) p)
      = false := by
    rw [hlstripS]
    rw [List.any_eq_false]
    intro pre hp
    unfold pyStartsWith
    rw [hlower]
    simp only [Bool.not_eq_true]
    refine not_prefix_of_boundary _ _ _ ?_ ?_
    · have := hpre pre hp
      unfold pyStartsWith pyLower at this
      exact this
    · revert hp
      revert pre
      decide
  unfold normalize_roast_output
  rw [if_neg hx]
  simp only [hfence, Bool.false_eq_true, if_false, hpre']
  have hnr : ∀ c ∈ (p1 ++ "\n\n" ++ p2 ++ "\n\n" ++ p3).data, c ≠ '\r' := by
    rw [hdata]
    intro c hc
    simp only [List.mem_append, List.mem_cons] at hc
    rcases hc with hc | rfl | rfl | hc | rfl | rfl | hc
    · exact r1 c hc
    · decide
    · decide
    · exact r2 c hc
    · decide
    · decide
    · exact r3 c hc
  rw [replaceCrLf_of_no_cr _ hnr, replaceCr_of_no_cr _ hnr, hstrip, hdata]
  rw [normAssemble_fixed p1.data p2.data p3.data n1 n2 n3 b1 b2 b3
    hh1 hl1 hh2 hl2 hh3 hl3]
  apply String.ext
  rw [hdata]

/-- C9 (confirmed): the normalizer is idempotent on any input that is
already exactly three clean paragraphs (non-empty, separated by single
blank lines, no code fence at the start, no paragraph starting with a
preamble phrase; clean also means the paragraphs have no surrounding
whitespace and no carriage returns). -/
theorem claim9_normalize_idempotent (p1 p2 p3 : String)
    (h1 : CleanPara p1) (h2 : CleanPara p2) (h3 : CleanPara p3)
    (hf1 : pyStartsWith p1 "```" = false)
    (hf2 : pyStartsWith p2 "```" = false)
    (hf3 : pyStartsWith p3 "```" = false)
    (hp1 : ∀ pre ∈ preambles, pyStartsWith (pyLower p1) pre = false)
    (hp2 : ∀ pre ∈ preambles, pyStartsWith (pyLower p2) pre = false)
    (hp3 : ∀ pre ∈ preambles, pyStartsWith (pyLower p3) pre = false) :
    normalize_roast_output (normalize_roast_output
        (p1 ++ "\n\n" ++ p2 ++ "\n\n" ++ p3))
      = normalize_roast_output (p1 ++ "\n\n" ++ p2 ++ "\n\n" ++ p3) := by
  have hfix := normalize_fixed p1 p2 p3 h1 h2 h3 hf1 hp1
  rw [hfix]
  exact hfix

/-- C9 (witness): idempotence evaluated on a concrete clean
three-paragraph text. -/
theorem claim9_witness :
    normalize_roast_output (normalize_roast_output
        (("Alpha" : String) ++ "\n\n" ++ "Beta" ++ "\n\n" ++ "Gamma"))
      = normalize_roast_output
        (("Alpha" : String) ++ "\n\n" ++ "Beta" ++ "\n\n" ++ "Gamma") :=
  claim9_normalize_idempotent "Alpha" "Beta" "Gamma"
    (by refine ⟨?_, ?_, ?_, ?_, ?_⟩ <;> decide)
    (by refine ⟨?_, ?_, ?_, ?_, ?_⟩ <;> decide)
    (by refine ⟨?_, ?_, ?_, ?_, ?_⟩ <;> decide)
    (by decide) (by decide) (by decide)
    (by decide) (by decide) (by decide)

theorem splitNl_no_nl (l : List Char) (h : ∀ c ∈ l, c ≠ '\n') :
    splitNl l = [l] := by
  induction l with
  | nil => rfl
  | cons c t ih =>
    have hc : c ≠ '\n' := h c (List.mem_cons_self c t)
    rw [splitNl_cons_ne c t hc, ih fun d hd => h d (List.mem_cons_of_mem c hd)]
    rfl

theorem splitLinesPy_nl (rest : List Char) :
    splitLinesPy ('\n' :: rest) = [] :: splitLinesPy rest := rfl

set_option maxHeartbeats 1000000 in
theorem splitLinesPy_cons_not_break (c : Char) (rest : List Char)
    (h : isLineBreak c = false) :
    splitLinesPy (c :: rest) = consHead c (splitLinesPy rest) := by
  have hcr : c ≠ '\r' := by
    intro hc
    rw [hc] at h
    simp [isLineBreak] at h
  rw [splitLinesPy.eq_def]
  split
  · rename_i heq
    simp at heq
  · rename_i tail heq
    injection heq with h1 h2
    exact absurd h1 hcr
  · rename_i c0 rest0 hcond heqn
    injection heqn with h1 h2
    subst h1; subst h2
    rw [if_neg]
    simp [h]

theorem splitLinesPy_append_nl (p rest : List Char)
    (hp : ∀ c ∈ p, isLineBreak c = false) :
    splitLinesPy (p ++ '\n' :: rest) = p :: splitLinesPy rest := by
  induction p with
  | nil => exact splitLinesPy_nl rest
  | cons c t ih =>
    rw [List.cons_append,
      splitLinesPy_cons_not_break c _ (hp c (List.mem_cons_self c t)),
      ih fun d hd => hp d (List.mem_cons_of_mem c hd)]
    rfl

theorem splitLinesPy_no_break (l : List Char)
    (h : ∀ c ∈ l, isLineBreak c = false) (hne : l ≠ []) :
    splitLinesPy l = [l] := by
  induction l with
  | nil => exact absurd rfl hne
  | cons c t ih =>
    rw [splitLinesPy_cons_not_break c t (h c (List.mem_cons_self c t))]
    cases t with
    | nil => rfl
    | cons d t0 =>
      rw [ih (fun e he => h e (List.mem_cons_of_mem c he)) (by simp)]
      rfl

theorem digitChar_not_break (k : Nat) : isLineBreak (digitChar k) = false := by
  unfold digitChar
  split <;> decide

theorem natToCharsGo_not_break (fuel n : Nat) (acc : List Char)
    (hacc : ∀ c ∈ acc, isLineBreak c = false) :
    ∀ c ∈ natToCharsGo fuel n acc, isLineBreak c = false := by
  induction fuel generalizing n acc with
  | zero => exact hacc
  | succ fuel ih =>
    rw [natToCharsGo]
    split
    · intro c hc
      rcases List.mem_cons.mp hc with h | h
      · exact h ▸ digitChar_not_break n
      · exact hacc c h
    · refine ih (n / 10) _ ?_
      intro c hc
      rcases List.mem_cons.mp hc with h | h
      · exact h ▸ digitChar_not_break (n % 10)
      · exact hacc c h

theorem pyIntStr_not_break (n : Int) :
    ∀ c ∈ (pyIntStr n).data, isLineBreak c = false := by
  unfold pyIntStr natToChars
  split
  · intro c hc
    rcases List.mem_cons.mp hc with h | h
    · subst h; decide
    · exact natToCharsGo_not_break _ _ [] (by simp) c h
  · exact natToCharsGo_not_break _ _ [] (by simp)

theorem no_break_append (a b : List Char)
    (ha : ∀ c ∈ a, isLineBreak c = false) (hb : ∀ c ∈ b, isLineBreak c = false) :
    ∀ c ∈ a ++ b, isLineBreak c = false := by
  intro c hc
  rcases List.mem_append.mp hc with h | h
  · exact ha c h
  · exact hb c h

theorem no_nl_of_no_break (l : List Char)
    (h : ∀ c ∈ l, isLineBreak c = false) : ∀ c ∈ l, c ≠ '\n' := by
  intro c hc he
  have := h c hc
  rw [he] at this
  simp [isLineBreak] at this

theorem no_cr_of_no_break (l : List Char)
    (h : ∀ c ∈ l, isLineBreak c = false) : ∀ c ∈ l, c ≠ '\r' := by
  intro c hc he
  have := h c hc
  rw [he] at this
  simp [isLineBreak] at this

/-- The assembling stage applied to two newline-free paragraphs: the
expansion cannot reach three, so one filler paragraph is appended. -/
theorem normAssemble_two (p2 p3 : List Char)
    (n2 : p2 ≠ []) (n3 : p3 ≠ [])
    (nb2 : ∀ c ∈ p2, c ≠ '\n') (nb3 : ∀ c ∈ p3, c ≠ '\n')
    (hh2 : headOkB p2 = true) (hl2 : lastOkB p2 = true)
    (hh3 : headOkB p3 = true) (hl3 : lastOkB p3 = true) :
    normAssemble (p2 ++ '\n' :: '\n' :: p3)
      = ⟨p2 ++ '\n' :: '\n' :: (p3 ++ '\n' :: '\n' :: fillerText.data)⟩ := by
  unfold normAssemble normStage3
  rw [splitBlank_append_blank p2 _ (hasBlank_of_no_nl p2 nb2)
    (lastOk_ne_nl p2 hl2), splitBlank_no_blank p3 (hasBlank_of_no_nl p3 nb3)]
  have e2 : pyStripL p2 = p2 := pyStripL_eq_self p2 hh2 hl2
  have e3 : pyStripL p3 = p3 := pyStripL_eq_self p3 hh3 hl3
  simp only [List.map_cons, List.map_nil, e2, e3]
  rw [List.filter_cons_of_pos (by simpa using n2),
    List.filter_cons_of_pos (by simpa using n3), List.filter_nil]
  unfold normSelect
  have hexp : normExpand [p2, p3] = [p2, p3] := by
    unfold normExpand
    rw [List.flatMap_cons, List.flatMap_cons, List.flatMap_nil]
    rw [splitNl_no_nl p2 nb2, splitNl_no_nl p3 nb3]
    simp only [List.map_cons, List.map_nil, e2, e3]
    rw [List.filter_cons_of_pos (by simpa using n2), List.filter_nil,
      List.filter_cons_of_pos (by simpa using n3), List.filter_nil]
    rfl
  rw [hexp]
  norm_num
  unfold normPad
  norm_num
  rw [intercalate_three]
  simp

theorem prefix_isPrefixOf_append (pre a b : List Char)
    (h : pre.isPrefixOf a = true) : pre.isPrefixOf (a ++ b) = true := by
  rw [List.isPrefixOf_iff_prefix] at h ⊢
  exact h.trans (List.prefix_append a b)

theorem isPrefixOf_false_of_heads (pre l : List Char) (a c : Char)
    (hp : pre.head? = some a) (hl : l.head? = some c) (hne : a ≠ c) :
    pre.isPrefixOf l = false := by
  cases pre with
  | nil => simp at hp
  | cons a0 p0 =>
    cases l with
    | nil => rfl
    | cons c0 l0 =>
      simp only [List.head?_cons, Option.some.injEq] at hp hl
      subst hp; subst hl
      simp [List.isPrefixOf, hne]

/-- When the text opens with a preamble phrase, the normalizer drops
everything up to the first blank line: applied to three newline-free
paragraphs whose first one triggers the preamble check, the whole first
paragraph is removed and (the expansion stage being unable to reach three
paragraphs) a filler paragraph is appended at the end. -/
theorem normalize_preamble_strip (P1 P2 P3 : String)
    (hnb1 : ∀ c ∈ P1.data, isLineBreak c = false)
    (hnb2 : ∀ c ∈ P2.data, isLineBreak c = false)
    (hnb3 : ∀ c ∈ P3.data, isLineBreak c = false)
    (n1 : P1.data ≠ []) (n2 : P2.data ≠ []) (n3 : P3.data ≠ [])
    (hh1 : headOkB P1.data = true) (hl1 : lastOkB P1.data = true)
    (hh2 : headOkB P2.data = true) (hl2 : lastOkB P2.data = true)
    (hh3 : headOkB P3.data = true) (hl3 : lastOkB P3.data = true)
    (hfence : pyStartsWith P1 "```" = false)
    (hhit : pyStartsWith (pyLower P1) "so," = true) :
    normalize_roast_output (P1 ++ "\n\n" ++ P2 ++ "\n\n" ++ P3)
      = P2 ++ "\n\n" ++ P3 ++ "\n\n" ++ fillerText := by
  have hnn : ("\n\n" : String).data = ['\n', '\n'] := rfl
  have hdata : (P1 ++ "\n\n" ++ P2 ++ "\n\n" ++ P3).data
      = P1.data ++ '\n' :: '\n' :: (P2.data ++ '\n' :: '\n' :: P3.data) := by
    simp [String.data_append, hnn]
  have hx : (P1 ++ "\n\n" ++ P2 ++ "\n\n" ++ P3) ≠ "" := by
    intro h
    have := congrArg String.data h
    rw [hdata] at this
    simp only [String.data] at this
    exact n1 (List.append_eq_nil.mp this).1
  have hXheadOk : headOkB (P1 ++ "\n\n" ++ P2 ++ "\n\n" ++ P3).data = true := by
    unfold headOkB
    rw [hdata, head?_append_of_ne_nil _ _ n1]
    cases hc : P1.data.head? with
    | none => rfl
    | some c => simp [headOk_elim _ hh1 c hc]
  have hXlastOk : lastOkB (P1 ++ "\n\n" ++ P2 ++ "\n\n" ++ P3).data = true := by
    unfold lastOkB
    rw [hdata, show P1.data ++ '\n' :: '\n' :: (P2.data ++ '\n' :: '\n' :: P3.data)
        = (P1.data ++ ['\n', '\n'] ++ P2.data ++ ['\n', '\n']) ++ P3.data
      from by simp, getLast?_append_right _ _ n3]
    cases hc : P3.data.getLast? with
    | none => rfl
    | some c => simp [lastOk_elim _ hl3 c hc]
  have hstrip : pyStripL (P1 ++ "\n\n" ++ P2 ++ "\n\n" ++ P3).data
      = (P1 ++ "\n\n" ++ P2 ++ "\n\n" ++ P3).data :=
    pyStripL_eq_self _ hXheadOk hXlastOk
  have hstripS : pyStrip (P1 ++ "\n\n" ++ P2 ++ "\n\n" ++ P3)
      = P1 ++ "\n\n" ++ P2 ++ "\n\n" ++ P3 := by
    unfold pyStrip
    rw [hstrip]
  have hlstripS : pyLStrip (P1 ++ "\n\n" ++ P2 ++ "\n\n" ++ P3)
      = P1 ++ "\n\n" ++ P2 ++ "\n\n" ++ P3 := by
    unfold pyLStrip
    rw [stripLeftBy_eq_self _ _ fun c hc => headOk_elim _ hXheadOk c hc]
  have hfenceX : pyStartsWith (pyStrip (P1 ++ "\n\n" ++ P2 ++ "\n\n" ++ P3))
      "```" = false := by
    rw [hstripS]
    unfold pyStartsWith
    rw [hdata]
    exact not_prefix_of_boundary _ _ _
      (by unfold pyStartsWith at hfence; exact hfence) (by decide)
  have hany : preambles.any (fun p =>
      pyStartsWith (pyLower (pyLStrip (P1 ++ "\n\n" ++ P2 ++ "\n\n" ++ P3))) p)
      = true := by
    rw [hlstripS, List.any_eq_true]
    refine ⟨"so,", by decide, ?_⟩
    unfold pyStartsWith pyLower pyLowerL
    rw [hdata, List.map_append]
    apply prefix_isPrefixOf_append
    unfold pyStartsWith pyLower pyLowerL at hhit
    exact hhit
  have hsplit : splitLinesPy (P1 ++ "\n\n" ++ P2 ++ "\n\n" ++ P3).data
      = [P1.data, [], P2.data, [], P3.data] := by
    rw [hdata, splitLinesPy_append_nl _ _ hnb1, splitLinesPy_nl,
      splitLinesPy_append_nl _ _ hnb2, splitLinesPy_nl,
      splitLinesPy_no_break _ hnb3 n3]
  have hdrop : dropThroughBlank [P1.data, ([] : List Char), P2.data, [], P3.data]
      = [P2.data, [], P3.data] := by
    simp only [dropThroughBlank]
    rw [pyStripL_eq_self P1.data hh1 hl1]
    simp [n1, show pyStripL ([] : List Char) = [] from rfl]
  have hint : List.intercalate ['\n'] [P2.data, ([] : List Char), P3.data]
      = P2.data ++ '\n' :: '\n' :: P3.data := by
    rw [intercalate_three]
    simp
  have hmidheadOk : headOkB (P2.data ++ '\n' :: '\n' :: P3.data) = true := by
    unfold headOkB
    rw [head?_append_of_ne_nil _ _ n2]
    cases hc : P2.data.head? with
    | none => rfl
    | some c => simp [headOk_elim _ hh2 c hc]
  have hmidlastOk : lastOkB (P2.data ++ '\n' :: '\n' :: P3.data) = true := by
    unfold lastOkB
    rw [show P2.data ++ '\n' :: '\n' :: P3.data
        = (P2.data ++ ['\n', '\n']) ++ P3.data from by simp,
      getLast?_append_right _ _ n3]
    cases hc : P3.data.getLast? with
    | none => rfl
    | some c => simp [lastOk_elim _ hl3 c hc]
  have hmidstrip : pyStripL (P2.data ++ '\n' :: '\n' :: P3.data)
      = P2.data ++ '\n' :: '\n' :: P3.data :=
    pyStripL_eq_self _ hmidheadOk hmidlastOk
  have hnrmid : ∀ c ∈ P2.data ++ '\n' :: '\n' :: P3.data, c ≠ '\r' := by
    intro c hc
    rcases List.mem_append.mp hc with h | h
    · exact no_cr_of_no_break _ hnb2 c h
    · rcases List.mem_cons.mp h with rfl | h
      · decide
      · rcases List.mem_cons.mp h with rfl | h
        · decide
        · exact no_cr_of_no_break _ hnb3 c h
  unfold normalize_roast_output
  rw [if_neg hx]
  simp only [hfenceX, Bool.false_eq_true, if_false, hany, if_true]
  rw [hsplit, hdrop, hint]
  have htj : pyStrip ⟨P2.data ++ '\n' :: '\n' :: P3.data⟩
      = (⟨P2.data ++ '\n' :: '\n' :: P3.data⟩ : String) := by
    unfold pyStrip
    show (⟨pyStripL (P2.data ++ '\n' :: '\n' :: P3.data)⟩ : String) = _
    rw [hmidstrip]
  rw [htj]
  have htjne : (⟨P2.data ++ '\n' :: '\n' :: P3.data⟩ : String) ≠ "" := by
    intro h
    have := congrArg String.data h
    simp only [String.data] at this
    exact n2 (List.append_eq_nil.mp this).1
  rw [if_neg htjne]
  show normAssemble
      (pyStripL (replaceCr (replaceCrLf (P2.data ++ '\n' :: '\n' :: P3.data)))) = _
  rw [replaceCrLf_of_no_cr _ hnrmid, replaceCr_of_no_cr _ hnrmid, hmidstrip]
  rw [normAssemble_two P2.data P3.data n2 n3 (no_nl_of_no_break _ hnb2)
    (no_nl_of_no_break _ hnb3) hh2 hl2 hh3 hl3]
  apply String.ext
  simp [String.data_append, hnn]

set_option maxRecDepth 10000 in
/-- C10 (confirmed): the fallback's first paragraph always begins with
"So, ", whose lower-casing "so," is among the normalizer's preamble
phrases; consequently (for line-break-free username, rendered counts and
language summary) normalizing the fallback roast removes the entire first
paragraph, re-splits, and appends the filler paragraph — so the fallback
output is not a fixed point of the normalizer even though both components
target the same three-paragraph contract. -/
theorem claim10_fallback_preamble_collision (username : String)
    (shaped : ShapedRecord) (stars : Int) (summary : String)
    (h1 : pySumStars shaped.repos = .ok stars)
    (h2 : langsSummary shaped.repos = .ok summary)
    (hu : ∀ c ∈ username.data, isLineBreak c = false)
    (hfo : ∀ c ∈ (pyStr shaped.followers).data, isLineBreak c = false)
    (hpr : ∀ c ∈ (pyStr shaped.public_repos).data, isLineBreak c = false)
    (hsum : ∀ c ∈ summary.data, isLineBreak c = false) :
    pyStartsWith (roastPara1 username shaped.public_repos shaped.followers stars)
      "So, " = true ∧
    fallback_rules_based_roast username shaped
      = .ok (roastPara1 username shaped.public_repos shaped.followers stars
          ++ "\n\n" ++ roastPara2 summary ++ "\n\n" ++ roastPara3) ∧
    normalize_roast_output (roastPara1 username shaped.public_repos
        shaped.followers stars ++ "\n\n" ++ roastPara2 summary ++ "\n\n"
        ++ roastPara3)
      = roastPara2 summary ++ "\n\n" ++ roastPara3 ++ "\n\n" ++ fillerText ∧
    normalize_roast_output (roastPara1 username shaped.public_repos
        shaped.followers stars ++ "\n\n" ++ roastPara2 summary ++ "\n\n"
        ++ roastPara3)
      ≠ roastPara1 username shaped.public_repos shaped.followers stars
          ++ "\n\n" ++ roastPara2 summary ++ "\n\n" ++ roastPara3 := by
  have hp1shape : (roastPara1 username shaped.public_repos shaped.followers
      stars).data
      = ("So, " : String).data ++ (username.data
        ++ ((", rocking a grand total of " : String).data
        ++ ((pyStr shaped.public_repos).data
        ++ ((" public repos and " : String).data
        ++ ((pyStr shaped.followers).data
        ++ ((" followers. " : String).data
        ++ (("That's not a GitHub presence, that's witness protection. Your star count (" : String).data
        ++ ((pyIntStr stars).data
        ++ (") suggests your most loyal fan is the stargazer button you keep pressing in your sleep." : String).data)))))))) := by
    unfold roastPara1
    simp [String.data_append, List.append_assoc]
  have hp2shape : (roastPara2 summary).data
      = ("Languages you dabble in: " : String).data ++ (summary.data
        ++ ((". That's not a tech stack, that's a buffet plate where you touched everything and finished nothing. " : String).data
        ++ ("Half your repos look like tutorials you rage-quit after the README." : String).data)) := by
    unfold roastPara2
    simp [String.data_append, List.append_assoc]
  have hnb1 : ∀ c ∈ (roastPara1 username shaped.public_repos shaped.followers
      stars).data, isLineBreak c = false := by
    rw [hp1shape]
    refine no_break_append _ _ (by decide) ?_
    refine no_break_append _ _ hu ?_
    refine no_break_append _ _ (by decide) ?_
    refine no_break_append _ _ hpr ?_
    refine no_break_append _ _ (by decide) ?_
    refine no_break_append _ _ hfo ?_
    refine no_break_append _ _ (by decide) ?_
    refine no_break_append _ _ (by decide) ?_
    exact no_break_append _ _ (pyIntStr_not_break stars) (by decide)
  have hnb2 : ∀ c ∈ (roastPara2 summary).data, isLineBreak c = false := by
    rw [hp2shape]
    refine no_break_append _ _ (by decide) ?_
    refine no_break_append _ _ hsum ?_
    exact no_break_append _ _ (by decide) (by decide)
  have hnb3 : ∀ c ∈ roastPara3.data, isLineBreak c = false := by decide
  have h1head : (roastPara1 username shaped.public_repos shaped.followers
      stars).data.head? = some 'S' := by
    rw [hp1shape, head?_append_of_ne_nil _ _ (by decide)]
    decide
  have h2head : (roastPara2 summary).data.head? = some 'L' := by
    rw [hp2shape, head?_append_of_ne_nil _ _ (by decide)]
    decide
  have n1 : (roastPara1 username shaped.public_repos shaped.followers
      stars).data ≠ [] := by
    intro h
    rw [h] at h1head
    simp at h1head
  have n2 : (roastPara2 summary).data ≠ [] := by
    intro h
    rw [h] at h2head
    simp at h2head
  have n3 : roastPara3.data ≠ [] := by decide
  have hh1 : headOkB (roastPara1 username shaped.public_repos shaped.followers
      stars).data = true := by
    unfold headOkB
    rw [h1head]
    decide
  have hh2 : headOkB (roastPara2 summary).data = true := by
    unfold headOkB
    rw [h2head]
    decide
  have hh3 : headOkB roastPara3.data = true := by decide
  have hl1 : lastOkB (roastPara1 username shaped.public_repos shaped.followers
      stars).data = true := by
    unfold lastOkB
    rw [getLast?_roastPara1]
    decide
  have hl2 : lastOkB (roastPara2 summary).data = true := by
    unfold lastOkB
    rw [getLast?_roastPara2]
    decide
  have hl3 : lastOkB roastPara3.data = true := by decide
  have hfence : pyStartsWith (roastPara1 username shaped.public_repos
      shaped.followers stars) "```" = false := by
    unfold pyStartsWith
    exact isPrefixOf_false_of_heads _ _ (Char.ofNat 96) 'S' (by decide) h1head
      (by decide)
  have hhit : pyStartsWith (pyLower (roastPara1 username shaped.public_repos
      shaped.followers stars)) "so," = true := by
    unfold pyStartsWith pyLower pyLowerL
    rw [hp1shape, List.map_append]
    apply prefix_isPrefixOf_append
    decide
  have hnorm := normalize_preamble_strip
    (roastPara1 username shaped.public_repos shaped.followers stars)
    (roastPara2 summary) roastPara3 hnb1 hnb2 hnb3 n1 n2 n3
    hh1 hl1 hh2 hl2 hh3 hl3 hfence hhit
  refine ⟨?_, ?_, hnorm, ?_⟩
  · unfold pyStartsWith
    rw [hp1shape]
    exact prefix_isPrefixOf_append _ _ _ (by decide)
  · unfold fallback_rules_based_roast
    rw [h1, h2]
    rfl
  · rw [hnorm]
    intro h
    have hhds := congrArg (fun s => List.head? s.data) h
    simp only at hhds
    have hL : (roastPara2 summary ++ "\n\n" ++ roastPara3 ++ "\n\n"
        ++ fillerText).data.head? = some 'L' := by
      simp only [String.data_append, List.append_assoc]
      rw [head?_append_of_ne_nil _ _ n2, h2head]
    have hS : (roastPara1 username shaped.public_repos shaped.followers stars
        ++ "\n\n" ++ roastPara2 summary ++ "\n\n" ++ roastPara3).data.head?
        = some 'S' := by
      simp only [String.data_append, List.append_assoc]
      rw [head?_append_of_ne_nil _ _ n1, h1head]
    rw [hL, hS] at hhds
    simp at hhds

set_option maxRecDepth 10000 in
set_option maxHeartbeats 2000000 in
/-- C10 (witness): the collision evaluated on a concrete username and the
empty shaped record. -/
theorem claim10_witness :
    pyStartsWith (roastPara1 "octo" (Json.num 0) (Json.num 0) 0) "So, " = true ∧
    fallback_rules_based_roast "octo"
        ⟨Json.null, Json.null, Json.null, Json.null, Json.null,
         Json.num 0, Json.num 0, Json.num 0, Json.null, [], ""⟩
      = .ok (roastPara1 "octo" (Json.num 0) (Json.num 0) 0
          ++ "\n\n" ++ roastPara2 "None" ++ "\n\n" ++ roastPara3) ∧
    normalize_roast_output (roastPara1 "octo" (Json.num 0) (Json.num 0) 0
        ++ "\n\n" ++ roastPara2 "None" ++ "\n\n" ++ roastPara3)
      = roastPara2 "None" ++ "\n\n" ++ roastPara3 ++ "\n\n" ++ fillerText ∧
    normalize_roast_output (roastPara1 "octo" (Json.num 0) (Json.num 0) 0
        ++ "\n\n" ++ roastPara2 "None" ++ "\n\n" ++ roastPara3)
      ≠ roastPara1 "octo" (Json.num 0) (Json.num 0) 0
          ++ "\n\n" ++ roastPara2 "None" ++ "\n\n" ++ roastPara3 :=
  claim10_fallback_preamble_collision "octo"
    ⟨Json.null, Json.null, Json.null, Json.null, Json.null,
     Json.num 0, Json.num 0, Json.num 0, Json.null, [], ""⟩
    0 "None" rfl rfl (by decide) (by decide) (by decide) (by decide)

/-- C4 (counterexample): a present but negative upstream `followers` value
propagates unchanged through `shape_roast_input`, so the claim that all
count fields of the result are non-negative integers (type mismatches
coerced to defaults) fails: the value is passed through, not coerced. -/
theorem claim4_counterexample :
    (shape_roast_input [("followers", Json.num (-1))] [] "").followers
        = Json.num (-1) ∧
    isNonnegInt
        (shape_roast_input [("followers", Json.num (-1))] [] "").followers
        = false :=
  ⟨rfl, rfl⟩

/-- C4 (amended): `shape_roast_input` is total by construction (every
declared field is always present in the result), keeps at most 10
repositories, copies the readme through, fills each absent upstream field
with its documented default, and passes each present upstream value
through unchanged — so count fields are non-negative integers exactly when
the upstream data is absent (default `0`) or itself a non-negative
integer; wrongly-typed or negative present values propagate rather than
being coerced. -/
theorem claim4_shape_defaults (profile : PyDict) (repos : List PyDict)
    (readme : String) :
    (shape_roast_input profile repos readme).repos.length ≤ 10 ∧
    (shape_roast_input profile repos readme).readme = readme ∧
    (shape_roast_input profile repos readme).repos
        = (repos.take 10).map shapeRepo ∧
    (plookup profile "login" = none →
      (shape_roast_input profile repos readme).username = Json.str "unknown") ∧
    (plookup profile "name" = none →
      (shape_roast_input profile repos readme).name = Json.null) ∧
    (plookup profile "bio" = none →
      (shape_roast_input profile repos readme).bio = Json.null) ∧
    (plookup profile "company" = none →
      (shape_roast_input profile repos readme).company = Json.null) ∧
    (plookup profile "location" = none →
      (shape_roast_input profile repos readme).location = Json.null) ∧
    (plookup profile "followers" = none →
      (shape_roast_input profile repos readme).followers = Json.num 0) ∧
    (plookup profile "following" = none →
      (shape_roast_input profile repos readme).following = Json.num 0) ∧
    (plookup profile "public_repos" = none →
      (shape_roast_input profile repos readme).public_repos = Json.num 0) ∧
    (plookup profile "created_at" = none →
      (shape_roast_input profile repos readme).created_at = Json.null) ∧
    (∀ v, plookup profile "followers" = some v →
      (shape_roast_input profile repos readme).followers = v) ∧
    (∀ v, plookup profile "following" = some v →
      (shape_roast_input profile repos readme).following = v) ∧
    (∀ v, plookup profile "public_repos" = some v →
      (shape_roast_input profile repos readme).public_repos = v) ∧
    (∀ r, plookup r "stargazers_count" = none →
      (shapeRepo r).stargazers_count = Json.num 0) ∧
    (∀ r, plookup r "fork" = none → (shapeRepo r).fork = Json.bool false) ∧
    (∀ r, plookup r "open_issues_count" = none →
      (shapeRepo r).open_issues_count = Json.num 0) ∧
    (∀ r, plookup r "language" = none → (shapeRepo r).language = Json.null) ∧
    (∀ r v, plookup r "stargazers_count" = some v →
      (shapeRepo r).stargazers_count = v) ∧
    (∀ r v, plookup r "open_issues_count" = some v →
      (shapeRepo r).open_issues_count = v) := by
  refine ⟨?_, rfl, rfl, ?_, ?_, ?_, ?_, ?_, ?_, ?_, ?_, ?_, ?_, ?_, ?_, ?_,
    ?_, ?_, ?_, ?_, ?_⟩
  · show ((repos.take 10).map shapeRepo).length ≤ 10
    rw [List.length_map, List.length_take]
    exact Nat.min_le_left _ _
  all_goals first
    | exact fun h => dget_of_absent _ _ _ h
    | exact fun v h => dget_of_present _ _ _ _ h
    | exact fun r h => dget_of_absent _ _ _ h
    | exact fun r v h => dget_of_present _ _ _ _ h

theorem histS_append_single (ls : List String) (x : String) :
    histS (ls ++ [x]) = bumpS (histS ls) x := by
  unfold histS
  rw [List.foldl_append]
  rfl

/-- The insertion-ordered counting dict equals the reference histogram:
first-seen key order with total occurrence counts. -/
theorem histS_eq (ls : List String) :
    histS ls = (dedupFirst ls).map fun l => (l, (ls.count l : Int)) := by
  induction ls using List.reverseRecOn with
  | nil => simp [histS, dedupFirst]
  | append_singleton ls x ih =>
    rw [histS_append_single, ih, dedupFirst_append_single]
    have hkeys : ((dedupFirst ls).map fun l => (l, (ls.count l : Int))).map (·.1)
        = dedupFirst ls := by
      rw [List.map_map]
      exact List.map_id _
    by_cases hmem : x ∈ ls
    · rw [if_pos hmem]
      have hx : x ∈ ((dedupFirst ls).map fun l => (l, (ls.count l : Int))).map (·.1) := by
        rw [hkeys]; exact (mem_dedupFirst x ls).mpr hmem
      have hnd : (((dedupFirst ls).map fun l => (l, (ls.count l : Int))).map (·.1)).Nodup := by
        rw [hkeys]; exact dedupFirst_nodup ls
      rw [bumpS_of_mem _ _ hnd hx, List.map_map]
      apply List.map_congr_left
      intro l hl
      by_cases hlx : l = x
      · subst hlx
        simp only [Function.comp_def, if_pos rfl, List.count_append,
          List.count_singleton, beq_self_eq_true, if_true, Prod.mk.injEq,
          true_and]
        push_cast
        omega
      · have : [x].count l = 0 := by
          rw [List.count_eq_zero]
          simp only [List.mem_singleton]
          exact hlx
        simp only [Function.comp_def, if_neg hlx, List.count_append, this,
          Nat.add_zero]
    · rw [if_neg hmem]
      have hx : x ∉ ((dedupFirst ls).map fun l => (l, (ls.count l : Int))).map (·.1) := by
        rw [hkeys]
        exact fun hc => hmem ((mem_dedupFirst x ls).mp hc)
      rw [bumpS_of_not_mem _ _ hx, List.map_append]
      congr 1
      · apply List.map_congr_left
        intro l hl
        have hlx : l ≠ x := by
          intro he
          exact hmem (he ▸ (mem_dedupFirst l ls).mp hl)
        have : [x].count l = 0 := by
          rw [List.count_eq_zero]
          simp only [List.mem_singleton]
          exact hlx
        simp [List.count_append, this]
      · have h0 : ls.count x = 0 := List.count_eq_zero.mpr hmem
        simp [List.count_append, h0, List.count_singleton]

theorem insertDesc_map {α β : Type} (g : α → β) (x : α × Int)
    (l : List (α × Int)) :
    insertDesc (g x.1, x.2) (l.map fun kv => (g kv.1, kv.2))
      = (insertDesc x l).map fun kv => (g kv.1, kv.2) := by
  induction l with
  | nil => rfl
  | cons y ys ih =>
    by_cases hc : x.2 ≥ y.2
    · simp [insertDesc, hc]
    · simp [insertDesc, hc, ih]

theorem sortDesc_map {α β : Type} (g : α → β) (l : List (α × Int)) :
    sortDesc (l.map fun kv => (g kv.1, kv.2))
      = (sortDesc l).map fun kv => (g kv.1, kv.2) := by
  induction l with
  | nil => rfl
  | cons x xs ih =>
    simp only [List.map_cons, sortDesc, ih]
    exact insertDesc_map g x (sortDesc xs)

theorem summary_render_map (S : List (String × Int)) :
    (if (S.map fun kv => (Json.str kv.1, kv.2)).isEmpty then "None"
     else String.intercalate ", "
       (((S.map fun kv => (Json.str kv.1, kv.2)).take 3).map renderLang))
      = (if S.isEmpty then "None"
         else String.intercalate ", "
           ((S.take 3).map fun kv => kv.1 ++ " x" ++ pyIntStr kv.2)) := by
  cases S with
  | nil => rfl
  | cons a as =>
    have h1 : ((a :: as).map fun kv => (Json.str kv.1, kv.2)).isEmpty = false := rfl
    have h2 : (a :: as).isEmpty = false := rfl
    rw [h1, h2]
    simp only [Bool.false_eq_true, if_false, ← List.map_take, List.map_map]
    congr 1

theorem liftKv_eq_map_pair :
    liftKv = fun kv : String × Int => (Json.str kv.1, kv.2) := by
  funext kv
  rfl

/-- C7 (amended): with the classification amended from
"missing/null counts as Unknown" to "Python-falsy counts as Unknown"
(adding the empty string — the only difference reachable with the
null-or-string language values GitHub returns), the language summary of
`fallback_rules_based_roast` equals the reference computation: count
repos per language, descending count with first-seen tie order, top 3
entries (3 satisfies the 3-5 of the claim), rendered "Lang xCount" and
comma-joined, or the literal "None" when there are no repos. -/
theorem claim7_langs_summary (repos : List RepoShape)
    (h : ∀ r ∈ repos, atomLang r = true) :
    langsSummary repos = .ok (langsSummaryRef amendedLangName repos) := by
  unfold langsSummary langsSummaryRef
  rw [langHistogram_atom repos h]
  show Except.ok _ = Except.ok _
  congr 1
  dsimp only
  rw [liftKv_eq_map_pair, sortDesc_map, ← histS_eq]
  exact summary_render_map _

/-- C7 (counterexample): a repo whose language is the empty string.  The
code treats every falsy language as "Unknown" (`or "Unknown"`), while the
reference computation of the claim maps only missing/null to "Unknown",
so the two summaries differ. -/
theorem claim7_counterexample :
    langsSummary
        [⟨Json.null, Json.null, Json.str "", Json.null, Json.num 0,
          Json.bool false, Json.num 0⟩]
      = .ok "Unknown x1" ∧
    langsSummaryRef claimLangName
        [⟨Json.null, Json.null, Json.str "", Json.null, Json.num 0,
          Json.bool false, Json.num 0⟩]
      = " x1" ∧
    ("Unknown x1" : String) ≠ " x1" := by
  refine ⟨rfl, ?_, by decide⟩
  simp [langsSummaryRef, dedupFirst, claimLangName, sortDesc, insertDesc,
    natToChars, natToCharsGo, pyIntStr, digitChar]
  rfl

/-- C7 (witness): the amended equation evaluated on one concrete repo
with a null language. -/
theorem claim7_witness :
    langsSummary
        [⟨Json.null, Json.null, Json.null, Json.null, Json.num 0,
          Json.bool false, Json.num 0⟩]
      = .ok (langsSummaryRef amendedLangName
        [⟨Json.null, Json.null, Json.null, Json.null, Json.num 0,
          Json.bool false, Json.num 0⟩]) :=
  claim7_langs_summary _ (by intro r hr; simp at hr; subst hr; rfl)

/-- C4 (witness): the amended theorem applied to a concrete profile with
all fields absent and a concrete over-long repo list. -/
theorem claim4_witness :
    (shape_roast_input [] [[("fork", Json.bool true)]] "hi").followers
        = Json.num 0 ∧
    (shape_roast_input [] [[("fork", Json.bool true)]] "hi").repos.length ≤ 10 := by
  have h := claim4_shape_defaults [] [[("fork", Json.bool true)]] "hi"
  exact ⟨h.2.2.2.2.2.2.2.2.1 rfl, h.1⟩

/-- ASCII lowering on code points, as the IGNORECASE literal comparison of
the `re` engine performs it (restricted to ASCII; the exotic sre
case-folding equivalences such as U+0131 or U+017F lie outside every input
form quantified below, since usernames and the URL prefixes are ASCII). -/
def lowerN (n : Nat) : Nat :=
  if 65 ≤ n ∧ n ≤ 90 then n + 32 else n

/-- Case-insensitive character comparison for the literal parts of the
patterns of server.py lines 141-145, compiled with `re.IGNORECASE`. -/
def ciEq (c p : Char) : Bool :=
  lowerN c.toNat == lowerN p.toNat

/-- The regex character class `[a-zA-Z0-9]` (ASCII digits and letters). -/
def isAlnumA (c : Char) : Bool :=
  decide ((48 ≤ c.toNat ∧ c.toNat ≤ 57) ∨ (65 ≤ c.toNat ∧ c.toNat ≤ 90) ∨
    (97 ≤ c.toNat ∧ c.toNat ≤ 122))

/-- The regex character class of the middle of the username group
(code point 45 is the hyphen). -/
def isUserChar (c : Char) : Bool :=
  isAlnumA c || decide (c.toNat = 45)

/-- Does the regex fragment consisting of zero or more user characters
followed by one `[a-zA-Z0-9]` match the whole list?  (The length bound
of the middle part is enforced separately by `groupOk`.) -/
def userMid : List Char → Bool
  | [] => false
  | [c] => isAlnumA c
  | c :: rest => isUserChar c && userMid rest

/-- Does the capturing group of the patterns of server.py lines 142-144,
one alphanumeric character optionally followed by at most 37 user
characters and a final alphanumeric character, match the whole list? -/
def groupOk : List Char → Bool
  | [] => false
  | [c] => isAlnumA c
  | c :: rest => isAlnumA c && decide (rest.length ≤ 38) && userMid rest

/-- A valid GitHub username: exactly the texts the capturing group can
match. -/
def validUsername (u : String) : Bool :=
  groupOk u.data

/-- Does the regex anchor at the end of the pattern match here: at the end
of the input, or just before a single final newline? -/
def dollarOk : List Char → Bool
  | [] => true
  | [c] => c == '\n'
  | _ => false

/-- Does dot-star followed by the end anchor match the list?  The dot does
not match a newline, so this drops a run of non-newline characters and
then requires the end anchor. -/
def dotStarDollar (t : List Char) : Bool :=
  dollarOk (t.dropWhile (fun c => c != '\n'))

/-- Does the pattern tail, an optional slash-plus-anything group followed
by the end anchor, match the list? -/
def tailOk (t : List Char) : Bool :=
  dollarOk t ||
    (match t with
     | c :: t2 => c == '/' && dotStarDollar t2
     | [] => false)

/-- Match the username group followed by the URL-pattern tail against the
remainder of the input after the literal URL prefix.  Every character the
group can consume is a user character, while the continuation can start
only with a slash, a newline, or the end of the input; hence a
backtracking match succeeds exactly when the group captures the whole
maximal run of user characters and the tail matches what is left. -/
def matchUser (rem : List Char) : Option (List Char) :=
  let run := rem.takeWhile isUserChar
  let rest := rem.dropWhile isUserChar
  if groupOk run && tailOk rest then some run else none

/-- Strip a case-insensitive literal prefix, returning the remainder. -/
def stripPrefixCI : List Char → List Char → Option (List Char)
  | [], s => some s
  | _ :: _, [] => none
  | p :: ps, c :: cs => if ciEq c p then stripPrefixCI ps cs else none

/-- Try one URL pattern: the literal prefix, then the username group and
the pattern tail. -/
def tryPattern (pre : List Char) (s : List Char) : Option (List Char) :=
  match stripPrefixCI pre s with
  | some rem => matchUser rem
  | none => none

/-- The bare pattern of server.py line 144: the username group alone
between the two anchors. -/
def tryBare (s : List Char) : Option (List Char) :=
  let run := s.takeWhile isUserChar
  let rest := s.dropWhile isUserChar
  if groupOk run && dollarOk rest then some run else none

/-- Python `str.rstrip` with the slash as its argument (line 138). -/
def rstripSlash (l : List Char) : List Char :=
  stripRightBy (fun c => c == '/') l

/-- The pattern loop of server.py lines 147-152 applied to the stripped
input: the first pattern (whose optional letter s unfolds into the two
prefix alternatives the backtracking engine tries in order), then the
scheme-less pattern, then the bare pattern, returning the captured
username of the first match, or the stripped input if none matches. -/
def extract_pick (t : List Char) : String :=
  match tryPattern "https://github.com/".data t with
  | some u => ⟨u⟩
  | none =>
    match tryPattern "http://github.com/".data t with
    | some u => ⟨u⟩
    | none =>
      match tryPattern "github.com/".data t with
      | some u => ⟨u⟩
      | none =>
        match tryBare t with
        | some u => ⟨u⟩
        | none => ⟨t⟩

/-- Model of `extract_github_username` (server.py lines 136-152): strip
whitespace from both ends and slashes from the right, then run the
pattern loop. -/
def extract_github_username (s : String) : String :=
  extract_pick (rstripSlash (pyStripL s.data))

theorem takeWhile_all_append (p : Char → Bool) (a b : List Char)
    (h : a.all p = true) : (a ++ b).takeWhile p = a ++ b.takeWhile p := by
  induction a with
  | nil => simp
  | cons c t ih =>
    simp only [List.all_cons, Bool.and_eq_true] at h
    simp [List.takeWhile_cons, h.1, ih h.2]

theorem dropWhile_all_append (p : Char → Bool) (a b : List Char)
    (h : a.all p = true) : (a ++ b).dropWhile p = b.dropWhile p := by
  induction a with
  | nil => simp
  | cons c t ih =>
    simp only [List.all_cons, Bool.and_eq_true] at h
    simp [List.dropWhile_cons, h.1, ih h.2]

theorem takeWhile_all (p : Char → Bool) (l : List Char)
    (h : l.all p = true) : l.takeWhile p = l := by
  have h2 := takeWhile_all_append p l [] h
  simpa using h2

theorem dropWhile_all (p : Char → Bool) (l : List Char)
    (h : l.all p = true) : l.dropWhile p = [] := by
  have h2 := dropWhile_all_append p l [] h
  simpa using h2

theorem ciEq_refl (c : Char) : ciEq c c = true := by
  simp [ciEq]

theorem stripPrefixCI_refl (pre s : List Char) :
    stripPrefixCI pre (pre ++ s) = some s := by
  induction pre with
  | nil => rfl
  | cons p ps ih => simp [stripPrefixCI, ciEq_refl, ih]

theorem stripPrefixCI_chars (pre s r : List Char)
    (h : stripPrefixCI pre s = some r) :
    ∀ p ∈ pre, ∃ c ∈ s, ciEq c p = true := by
  induction pre generalizing s with
  | nil => intro p hp; exact absurd hp (List.not_mem_nil p)
  | cons p0 ps ih =>
    cases s with
    | nil => exact absurd h (by simp [stripPrefixCI])
    | cons c cs =>
      simp only [stripPrefixCI] at h
      by_cases hc : ciEq c p0 = true
      · rw [if_pos hc] at h
        intro p hp
        rcases List.mem_cons.mp hp with hp0 | hp2
        · exact ⟨c, List.mem_cons_self c cs, hp0 ▸ hc⟩
        · obtain ⟨c2, hc2, hce⟩ := ih cs h p hp2
          exact ⟨c2, List.mem_cons_of_mem c hc2, hce⟩
      · rw [if_neg hc] at h
        exact absurd h (by simp)

theorem userChar_toNat (c : Char) (h : isUserChar c = true) :
    c.toNat = 45 ∨ (48 ≤ c.toNat ∧ c.toNat ≤ 57) ∨
      (65 ≤ c.toNat ∧ c.toNat ≤ 90) ∨ (97 ≤ c.toNat ∧ c.toNat ≤ 122) := by
  simp [isUserChar, isAlnumA] at h
  tauto

theorem userChar_ciEq_ne (c d : Char) (h : isUserChar c = true)
    (hd : lowerN d.toNat = 46 ∨ lowerN d.toNat = 58) : ciEq c d = false := by
  have hc := userChar_toNat c h
  simp only [ciEq, beq_eq_false_iff_ne, ne_eq]
  intro he
  rcases hd with hd | hd <;> rw [hd] at he <;>
    (unfold lowerN at he; split at he <;> omega)

theorem tryPattern_none_of_userChars (pre s : List Char)
    (hs : s.all isUserChar = true) (d : Char) (hd : d ∈ pre)
    (hdv : lowerN d.toNat = 46 ∨ lowerN d.toNat = 58) :
    tryPattern pre s = none := by
  unfold tryPattern
  cases hm : stripPrefixCI pre s with
  | none => rfl
  | some r =>
    obtain ⟨c, hcs, hce⟩ := stripPrefixCI_chars pre s r hm d hd
    have hcu : isUserChar c = true := List.all_eq_true.mp hs c hcs
    rw [userChar_ciEq_ne c d hcu hdv] at hce
    exact absurd hce (by simp)

theorem userMid_all (l : List Char) (h : userMid l = true) :
    l.all isUserChar = true := by
  induction l with
  | nil => rfl
  | cons c t ih =>
    cases t with
    | nil =>
      simp only [userMid] at h
      simp [List.all_cons, isUserChar, h]
    | cons d t2 =>
      simp only [userMid, Bool.and_eq_true] at h
      rw [List.all_eq_true]
      intro x hx
      rcases List.mem_cons.mp hx with h4 | h4
      · rw [h4]; exact h.1
      · exact List.all_eq_true.mp (ih h.2) x h4

theorem groupOk_all (u : List Char) (h : groupOk u = true) :
    u.all isUserChar = true := by
  cases u with
  | nil => exact absurd h (by decide)
  | cons c rest =>
    cases rest with
    | nil =>
      simp only [groupOk] at h
      simp [List.all_cons, isUserChar, h]
    | cons d t =>
      simp only [groupOk, Bool.and_eq_true] at h
      rw [List.all_eq_true]
      intro x hx
      rcases List.mem_cons.mp hx with h4 | h4
      · rw [h4]; simp [isUserChar, h.1.1]
      · exact List.all_eq_true.mp (userMid_all _ h.2) x h4

theorem userMid_last (l : List Char) (h : userMid l = true) :
    ∃ c, l.getLast? = some c ∧ isAlnumA c = true := by
  induction l with
  | nil => exact absurd h (by decide)
  | cons c t ih =>
    cases t with
    | nil => exact ⟨c, rfl, by simpa only [userMid] using h⟩
    | cons d t2 =>
      simp only [userMid, Bool.and_eq_true] at h
      obtain ⟨c2, hc2, ha2⟩ := ih h.2
      exact ⟨c2, by rw [List.getLast?_cons_cons]; exact hc2, ha2⟩

theorem groupOk_last (u : List Char) (h : groupOk u = true) :
    ∃ c, u.getLast? = some c ∧ isAlnumA c = true := by
  cases u with
  | nil => exact absurd h (by decide)
  | cons c rest =>
    cases rest with
    | nil => exact ⟨c, rfl, by simpa only [groupOk] using h⟩
    | cons d t =>
      simp only [groupOk, Bool.and_eq_true] at h
      obtain ⟨c2, hc2, ha2⟩ := userMid_last _ h.2
      exact ⟨c2, by rw [List.getLast?_cons_cons]; exact hc2, ha2⟩

theorem char_le_toNat {a b : Char} (h : a ≤ b) : a.toNat ≤ b.toNat := by
  have h2 : a.val ≤ b.val := h
  rw [UInt32.le_def, BitVec.le_def] at h2
  exact h2

theorem userChar_not_ws (c : Char) (h : isUserChar c = true) :
    isPyWs c = false := by
  have hc := userChar_toNat c h
  cases hw : isPyWs c
  · rfl
  · exfalso
    simp only [isPyWs, Bool.or_eq_true, decide_eq_true_eq,
      Bool.and_eq_true] at hw
    rcases hw with
      ((((((((((((((((((h0|h0)|h0)|h0)|h0)|h0)|h0)|h0)|h0)|h0)|h0)|h0)|h0)|h0)|h0)|h0)|h0)|h0)|h0)
    all_goals
      first
      | (rw [h0] at hc; revert hc; decide)
      | (obtain ⟨ha, hb⟩ := h0
         have h1 := char_le_toNat ha
         have he : (Char.ofNat 8192).toNat = 8192 := by decide
         rw [he] at h1
         omega)

theorem alnum_not_slash (c : Char) (h : isAlnumA c = true) :
    (c == '/') = false := by
  rw [beq_eq_false_iff_ne]
  intro he
  rw [he] at h
  exact absurd h (by decide)

theorem headOkB_of (l : List Char)
    (h : ∀ c, l.head? = some c → isPyWs c = false) : headOkB l = true := by
  unfold headOkB
  cases hh : l.head? with
  | none => rfl
  | some c => simp [h c hh]

theorem lastOkB_of (l : List Char)
    (h : ∀ c, l.getLast? = some c → isPyWs c = false) : lastOkB l = true := by
  unfold lastOkB
  cases hh : l.getLast? with
  | none => rfl
  | some c => simp [h c hh]

theorem stripFix (a : List Char)
    (hhead : ∀ c, a.head? = some c → isPyWs c = false)
    (hlast : ∀ c, a.getLast? = some c → isPyWs c = false ∧ (c == '/') = false) :
    rstripSlash (pyStripL a) = a := by
  rw [pyStripL_eq_self a (headOkB_of a hhead)
    (lastOkB_of a fun c hc => (hlast c hc).1)]
  exact stripRightBy_eq_self _ a fun c hc => (hlast c hc).2

theorem stripRightBy_append_nil (p : Char → Bool) (a b : List Char)
    (hb : stripRightBy p b = []) : stripRightBy p (a ++ b) = stripRightBy p a := by
  induction a with
  | nil => simpa [stripRightBy] using hb
  | cons c t ih => rw [List.cons_append, stripRightBy_cons, ih, stripRightBy_cons]

theorem stripRightBy_append_pos (p : Char → Bool) (a b : List Char)
    (hb : stripRightBy p b ≠ []) : stripRightBy p (a ++ b) = a ++ stripRightBy p b := by
  induction a with
  | nil => simp
  | cons c t ih =>
    rw [List.cons_append, stripRightBy_cons, ih]
    cases h2 : t ++ stripRightBy p b with
    | nil => exact absurd (List.append_eq_nil.mp h2).2 hb
    | cons d t0 => rw [List.cons_append, h2]

theorem tailOk_slash (r2 : List Char) (h : ∀ c ∈ r2, c ≠ '\n') :
    tailOk ('/' :: r2) = true := by
  have hall : r2.all (fun c => c != '\n') = true := by
    rw [List.all_eq_true]
    intro x hx
    simpa using h x hx
  have hd : dotStarDollar r2 = true := by
    unfold dotStarDollar
    rw [dropWhile_all _ _ hall]
    rfl
  unfold tailOk
  rw [show (match ('/' :: r2 : List Char) with
      | c :: t2 => c == '/' && dotStarDollar t2
      | [] => false) = (('/' : Char) == '/' && dotStarDollar r2) from rfl, hd]
  simp

theorem matchUser_run (u tail : List Char) (hu : groupOk u = true)
    (hall : u.all isUserChar = true)
    (ht : tail = [] ∨ ∃ r2, tail = '/' :: r2 ∧ ∀ c ∈ r2, c ≠ '\n') :
    matchUser (u ++ tail) = some u := by
  unfold matchUser
  rcases ht with rfl | ⟨r2, rfl, hr2⟩
  · rw [List.append_nil, takeWhile_all _ _ hall, dropWhile_all _ _ hall]
    simp only [hu]
    rfl
  · rw [takeWhile_all_append _ _ _ hall, dropWhile_all_append _ _ _ hall]
    simp [List.takeWhile_cons, List.dropWhile_cons,
      (by decide : isUserChar '/' = false), hu, tailOk_slash r2 hr2]

theorem tryBare_run (u : List Char) (hu : groupOk u = true)
    (hall : u.all isUserChar = true) : tryBare u = some u := by
  unfold tryBare
  rw [takeWhile_all _ _ hall, dropWhile_all _ _ hall]
  simp only [hu]
  rfl

theorem stripPrefixCI_p1_http (X : List Char) :
    stripPrefixCI "https://github.com/".data
      ("http://github.com/".data ++ X) = none := rfl

theorem stripPrefixCI_p1_ghc (X : List Char) :
    stripPrefixCI "https://github.com/".data
      ("github.com/".data ++ X) = none := rfl

theorem stripPrefixCI_p2_ghc (X : List Char) :
    stripPrefixCI "http://github.com/".data
      ("github.com/".data ++ X) = none := rfl

theorem tryPattern_p1_http (X : List Char) :
    tryPattern "https://github.com/".data
      ("http://github.com/".data ++ X) = none := by
  unfold tryPattern
  rw [stripPrefixCI_p1_http]

theorem tryPattern_p1_ghc (X : List Char) :
    tryPattern "https://github.com/".data
      ("github.com/".data ++ X) = none := by
  unfold tryPattern
  rw [stripPrefixCI_p1_ghc]

theorem tryPattern_p2_ghc (X : List Char) :
    tryPattern "http://github.com/".data
      ("github.com/".data ++ X) = none := by
  unfold tryPattern
  rw [stripPrefixCI_p2_ghc]

theorem pick_https (u tail : List Char) (hu : groupOk u = true)
    (ht : tail = [] ∨ ∃ r2, tail = '/' :: r2 ∧ ∀ c ∈ r2, c ≠ '\n') :
    extract_pick ("https://github.com/".data ++ (u ++ tail)) = ⟨u⟩ := by
  have hall := groupOk_all u hu
  unfold extract_pick
  rw [show tryPattern "https://github.com/".data
      ("https://github.com/".data ++ (u ++ tail)) = some u from by
    unfold tryPattern
    rw [stripPrefixCI_refl]
    exact matchUser_run u tail hu hall ht]

theorem pick_http (u tail : List Char) (hu : groupOk u = true)
    (ht : tail = [] ∨ ∃ r2, tail = '/' :: r2 ∧ ∀ c ∈ r2, c ≠ '\n') :
    extract_pick ("http://github.com/".data ++ (u ++ tail)) = ⟨u⟩ := by
  have hall := groupOk_all u hu
  unfold extract_pick
  rw [tryPattern_p1_http,
    show tryPattern "http://github.com/".data
      ("http://github.com/".data ++ (u ++ tail)) = some u from by
    unfold tryPattern
    rw [stripPrefixCI_refl]
    exact matchUser_run u tail hu hall ht]

theorem pick_ghc (u tail : List Char) (hu : groupOk u = true)
    (ht : tail = [] ∨ ∃ r2, tail = '/' :: r2 ∧ ∀ c ∈ r2, c ≠ '\n') :
    extract_pick ("github.com/".data ++ (u ++ tail)) = ⟨u⟩ := by
  have hall := groupOk_all u hu
  unfold extract_pick
  rw [tryPattern_p1_ghc, tryPattern_p2_ghc,
    show tryPattern "github.com/".data
      ("github.com/".data ++ (u ++ tail)) = some u from by
    unfold tryPattern
    rw [stripPrefixCI_refl]
    exact matchUser_run u tail hu hall ht]

theorem pick_bare (u : List Char) (hu : groupOk u = true) :
    extract_pick u = ⟨u⟩ := by
  have hall := groupOk_all u hu
  unfold extract_pick
  rw [tryPattern_none_of_userChars _ _ hall ':' (by decide) (Or.inr (by decide)),
    tryPattern_none_of_userChars _ _ hall ':' (by decide) (Or.inr (by decide)),
    tryPattern_none_of_userChars _ _ hall '.' (by decide) (Or.inl (by decide)),
    tryBare_run u hu hall]

theorem t_url (A r : List Char)
    (hhead : ∀ c, A.head? = some c → isPyWs c = false)
    (hlastA : ∀ c, A.getLast? = some c → (c == '/') = false)
    (hr : ∀ c ∈ r, isPyWs c = false) :
    rstripSlash (pyStripL (A ++ '/' :: r)) = A ∨
      ∃ r2, rstripSlash (pyStripL (A ++ '/' :: r)) = A ++ '/' :: r2 ∧
        ∀ c ∈ r2, c ≠ '\n' := by
  have hne : ('/' :: r : List Char) ≠ [] := by simp
  have hstrip : pyStripL (A ++ '/' :: r) = A ++ '/' :: r := by
    apply pyStripL_eq_self
    · apply headOkB_of
      intro c hc
      cases A with
      | nil =>
        rw [List.nil_append, List.head?_cons] at hc
        injection hc with hc
        rw [← hc]
        decide
      | cons a t =>
        rw [List.cons_append, List.head?_cons] at hc
        injection hc with hc
        exact hhead c (by rw [List.head?_cons, hc])
    · apply lastOkB_of
      intro c hc
      rw [getLast?_append_right A _ hne] at hc
      cases hr0 : r with
      | nil =>
        rw [hr0, show (['/'] : List Char).getLast? = some '/' from rfl] at hc
        injection hc with hc
        rw [← hc]
        decide
      | cons d t =>
        rw [hr0, List.getLast?_cons_cons] at hc
        have hcm : c ∈ d :: t := List.mem_of_getLast?_eq_some hc
        exact hr c (by rw [hr0]; exact hcm)
  rw [hstrip]
  unfold rstripSlash
  cases hsr : stripRightBy (fun c => c == '/') r with
  | nil =>
    left
    have h1 : stripRightBy (fun c => c == '/') ('/' :: r) = [] := by
      rw [stripRightBy_cons, hsr]
      rfl
    rw [stripRightBy_append_nil _ _ _ h1]
    exact stripRightBy_eq_self _ A hlastA
  | cons d t0 =>
    right
    have h1 : stripRightBy (fun c => c == '/') ('/' :: r) = '/' :: d :: t0 := by
      rw [stripRightBy_cons, hsr]
    refine ⟨d :: t0, ?_, ?_⟩
    · rw [stripRightBy_append_pos _ _ _ (by rw [h1]; simp), h1]
    · intro c hcm he
      have hpre : (d :: t0 : List Char) <+: r := by
        rw [← hsr]
        exact stripRightBy_prefix _ r
      have h3 := hr c (hpre.subset hcm)
      rw [he] at h3
      exact absurd h3 (by decide)

theorem url_head (preD : List Char) (u : List Char) (a : Char)
    (hph : preD.head? = some a) (ha : isPyWs a = false) :
    ∀ c, (preD ++ u).head? = some c → isPyWs c = false := by
  intro c hc
  have hpd : preD ≠ [] := by
    intro h0
    rw [h0] at hph
    exact absurd hph (by simp)
  rw [head?_append_of_ne_nil _ _ hpd, hph] at hc
  injection hc with hc
  rw [← hc]
  exact ha

theorem url_last (preD u : List Char) (hneu : u ≠ [])
    (hul : ∀ c, u.getLast? = some c → isPyWs c = false ∧ (c == '/') = false) :
    ∀ c, (preD ++ u).getLast? = some c →
      isPyWs c = false ∧ (c == '/') = false := by
  intro c hc
  rw [getLast?_append_right _ _ hneu] at hc
  exact hul c hc

/-- C8: on every input of one of the three URL forms or a bare valid
username, with an arbitrary whitespace-free path remainder after the
username, `extract_github_username` returns exactly the username; in
particular it is idempotent on canonical usernames. -/
theorem claim8_extract_username (u r : String)
    (hu : validUsername u = true)
    (hr : ∀ c ∈ r.data, isPyWs c = false) :
    extract_github_username u = u ∧
    extract_github_username ("https://github.com/" ++ u) = u ∧
    extract_github_username ("http://github.com/" ++ u) = u ∧
    extract_github_username ("github.com/" ++ u) = u ∧
    extract_github_username ("https://github.com/" ++ u ++ "/" ++ r) = u ∧
    extract_github_username ("http://github.com/" ++ u ++ "/" ++ r) = u ∧
    extract_github_username ("github.com/" ++ u ++ "/" ++ r) = u := by
  have hgu : groupOk u.data = true := hu
  have hall := groupOk_all u.data hgu
  have hne : u.data ≠ [] := by
    intro h0
    rw [h0] at hgu
    exact absurd hgu (by decide)
  obtain ⟨cl, hcl, hclA⟩ := groupOk_last u.data hgu
  have hulast : ∀ c, u.data.getLast? = some c →
      isPyWs c = false ∧ (c == '/') = false := by
    intro c hc
    rw [hcl] at hc
    injection hc with hc
    rw [← hc]
    exact ⟨userChar_not_ws cl (by simp [isUserChar, hclA]),
      alnum_not_slash cl hclA⟩
  have huhead : ∀ c, u.data.head? = some c → isPyWs c = false := by
    intro c hc
    apply userChar_not_ws
    apply List.all_eq_true.mp hall
    cases hud : u.data with
    | nil => rw [hud] at hc; exact absurd hc (by simp)
    | cons a t =>
      rw [hud, List.head?_cons] at hc
      injection hc with hc
      rw [← hc]
      exact List.mem_cons_self a t
  have hws_h : isPyWs 'h' = false := by decide
  have hws_g : isPyWs 'g' = false := by decide
  have hh1 := url_head "https://github.com/".data u.data 'h' rfl hws_h
  have hh2 := url_head "http://github.com/".data u.data 'h' rfl hws_h
  have hh3 := url_head "github.com/".data u.data 'g' rfl hws_g
  have hl1 := url_last "https://github.com/".data u.data hne hulast
  have hl2 := url_last "http://github.com/".data u.data hne hulast
  have hl3 := url_last "github.com/".data u.data hne hulast
  refine ⟨?_, ?_, ?_, ?_, ?_, ?_, ?_⟩
  · unfold extract_github_username
    rw [stripFix u.data huhead hulast]
    exact pick_bare u.data hgu
  · unfold extract_github_username
    rw [String.data_append, stripFix _ hh1 hl1,
      show "https://github.com/".data ++ u.data
        = "https://github.com/".data ++ (u.data ++ []) from by simp]
    exact pick_https u.data [] hgu (Or.inl rfl)
  · unfold extract_github_username
    rw [String.data_append, stripFix _ hh2 hl2,
      show "http://github.com/".data ++ u.data
        = "http://github.com/".data ++ (u.data ++ []) from by simp]
    exact pick_http u.data [] hgu (Or.inl rfl)
  · unfold extract_github_username
    rw [String.data_append, stripFix _ hh3 hl3,
      show "github.com/".data ++ u.data
        = "github.com/".data ++ (u.data ++ []) from by simp]
    exact pick_ghc u.data [] hgu (Or.inl rfl)
  · unfold extract_github_username
    rw [show ("https://github.com/" ++ u ++ "/" ++ r).data
        = ("https://github.com/".data ++ u.data) ++ '/' :: r.data from by
      simp [show "/".data = ['/'] from rfl, List.append_assoc]]
    rcases t_url ("https://github.com/".data ++ u.data) r.data hh1
        (fun c hc => (hl1 c hc).2) hr with h5 | ⟨r2, h5, hr2⟩
    · rw [h5, show "https://github.com/".data ++ u.data
          = "https://github.com/".data ++ (u.data ++ []) from by simp]
      exact pick_https u.data [] hgu (Or.inl rfl)
    · rw [h5, show ("https://github.com/".data ++ u.data) ++ '/' :: r2
          = "https://github.com/".data ++ (u.data ++ '/' :: r2) from by simp]
      exact pick_https u.data ('/' :: r2) hgu (Or.inr ⟨r2, rfl, hr2⟩)
  · unfold extract_github_username
    rw [show ("http://github.com/" ++ u ++ "/" ++ r).data
        = ("http://github.com/".data ++ u.data) ++ '/' :: r.data from by
      simp [show "/".data = ['/'] from rfl, List.append_assoc]]
    rcases t_url ("http://github.com/".data ++ u.data) r.data hh2
        (fun c hc => (hl2 c hc).2) hr with h5 | ⟨r2, h5, hr2⟩
    · rw [h5, show "http://github.com/".data ++ u.data
          = "http://github.com/".data ++ (u.data ++ []) from by simp]
      exact pick_http u.data [] hgu (Or.inl rfl)
    · rw [h5, show ("http://github.com/".data ++ u.data) ++ '/' :: r2
          = "http://github.com/".data ++ (u.data ++ '/' :: r2) from by simp]
      exact pick_http u.data ('/' :: r2) hgu (Or.inr ⟨r2, rfl, hr2⟩)
  · unfold extract_github_username
    rw [show ("github.com/" ++ u ++ "/" ++ r).data
        = ("github.com/".data ++ u.data) ++ '/' :: r.data from by
      simp [show "/".data = ['/'] from rfl, List.append_assoc]]
    rcases t_url ("github.com/".data ++ u.data) r.data hh3
        (fun c hc => (hl3 c hc).2) hr with h5 | ⟨r2, h5, hr2⟩
    · rw [h5, show "github.com/".data ++ u.data
          = "github.com/".data ++ (u.data ++ []) from by simp]
      exact pick_ghc u.data [] hgu (Or.inl rfl)
    · rw [h5, show ("github.com/".data ++ u.data) ++ '/' :: r2
          = "github.com/".data ++ (u.data ++ '/' :: r2) from by simp]
      exact pick_ghc u.data ('/' :: r2) hgu (Or.inr ⟨r2, rfl, hr2⟩)

/-- The outcome of one GitHub HTTP GET as the code observes it: either a
response carrying a status code and the decoded JSON body, or a
transport-level exception (connection error, timeout) carrying a message. -/
inductive FetchOutcome where
  | resp (status : Int) (body : Json)
  | exc (msg : String)

/-- The outcome of one raw-README GET: a status code and the response
text, or a transport-level exception. -/
inductive TextOutcome where
  | resp (status : Int) (text : String)
  | exc (msg : String)

/-- The outcome of the Groq POST: a transport-level exception, or a status
code together with the attempt to decode the response body as JSON (the
decode runs only on the non-error-status path and can itself raise). -/
inductive AIOutcome where
  | resp (status : Int) (decoded : Except String Json)
  | exc (msg : String)

/-- A Python exception as the outer handlers of `github_roast`
distinguish them: an `McpError` carrying its message, or any other
exception. -/
inductive PyErr where
  | mcp (msg : String)
  | other (msg : String)

/-- Model of `GitHubClient.fetch_profile` (server.py lines 60-68) over an
injected request outcome: 404 raises the profile-not-found `McpError`,
any other error status raises the status-bearing `McpError`, a transport
exception propagates, and otherwise the decoded body is returned. -/
def fetch_profile (o : FetchOutcome) : Except PyErr Json :=
  match o with
  | .exc m => .error (.other m)
  | .resp status body =>
    if status = 404 then .error (.mcp "GitHub profile not found")
    else if status ≥ 400 then
      .error (.mcp ("GitHub error: " ++ pyIntStr status))
    else .ok body

/-- Model of `GitHubClient.fetch_repos` (server.py lines 70-76): an error
status is converted into the empty list, but there is no handler around
the request itself, so a transport exception propagates to the caller. -/
def fetch_repos (o : FetchOutcome) : Except PyErr Json :=
  match o with
  | .exc m => .error (.other m)
  | .resp status body =>
    if status ≥ 400 then .ok (Json.arr [])
    else .ok body

/-- One iteration of the README loop of server.py lines 85-91: the text on
status 200, nothing on any other status or on an exception (the bare
`except` swallows everything). -/
def readmeTry : TextOutcome → Option String
  | .resp s t => if s = 200 then some t else none
  | .exc _ => none

/-- Model of `GitHubClient.fetch_profile_readme` (server.py lines 78-92):
try the two branch URLs in order, return the first 200-status text, else
the empty string; this function never raises. -/
def fetch_profile_readme (o1 o2 : TextOutcome) : String :=
  match readmeTry o1 with
  | some t => t
  | none =>
    match readmeTry o2 with
    | some t => t
    | none => ""

/-- Model of `GroqAIClient.is_configured` (server.py lines 102-103):
truthiness of the key and of its stripped form. -/
def is_configured (api_key : String) : Bool :=
  api_key != "" && pyStrip api_key != ""

/-- Model of `GroqAIClient.generate` (server.py lines 105-135) over an
injected request outcome: unconfigured raises the configuration
`McpError`; a transport exception or a JSON decode failure propagates; an
error status raises the status-bearing `McpError`; otherwise the content
is extracted with `data.get("choices", [])`, the falsy-check shortcut,
`choices[0].get("message", {})` and `str(message.get("content", ""))`.
Degenerate shapes (a non-dict body, a truthy non-list choices value, a
non-dict first choice or message) raise an attribute, type or key error;
only the fact that they raise a non-McpError exception matters to the
caller, so the modelled messages are the exception class names. -/
def generate (api_key : String) (o : AIOutcome) : Except PyErr String :=
  if is_configured api_key = false then
    .error (.mcp "Groq API is not configured")
  else
    match o with
    | .exc m => .error (.other m)
    | .resp status dec =>
      if status ≥ 400 then
        .error (.mcp ("AI service error: " ++ pyIntStr status))
      else
        match dec with
        | .error m => .error (.other m)
        | .ok (Json.obj kvs) =>
          let choices := dget kvs "choices" (Json.arr [])
          if pyTruthy choices then
            match choices with
            | Json.arr (Json.obj ckvs :: _) =>
              match dget ckvs "message" (Json.obj []) with
              | Json.obj mkvs => .ok (pyStr (dget mkvs "content" (Json.str "")))
              | _ => .error (.other "AttributeError")
            | Json.arr (_ :: _) => .error (.other "AttributeError")
            | _ => .error (.other "TypeError")
          else .ok ""
        | .ok _ => .error (.other "AttributeError")

/-- The injected outside world of one `github_roast` call: the three
GitHub request outcomes, the configured key, and the Groq request
outcome. -/
structure RoastEnv where
  profileO : FetchOutcome
  reposO : FetchOutcome
  readme1 : TextOutcome
  readme2 : TextOutcome
  api_key : String
  aiO : AIOutcome

/-- The observable result of one `github_roast` call: the returned string,
whether `generate` was invoked, and whether the rules-based fallback was
invoked. -/
structure RoastRun where
  result : String
  aiCalled : Bool
  fallbackCalled : Bool

/-- The profile value must be a dict for `profile.get` to work; any other
shape raises an attribute error inside `shape_roast_input`. -/
def toPyDict : Json → Option PyDict
  | Json.obj kvs => some kvs
  | _ => none

/-- The repos value must expose its first ten entries as dicts for
`repo.get` to work in the comprehension over `repos[:10]`; a non-list
value or a non-dict among the first ten raises inside
`shape_roast_input` (later entries are never touched). -/
def toDictList10 : Json → Option (List PyDict)
  | Json.arr xs =>
    (xs.take 10).foldr
      (fun x acc =>
        match x, acc with
        | Json.obj kvs, some l => some (kvs :: l)
        | _, _ => none)
      (some [])
  | _ => none

/-- The roast header line of server.py lines 313 and 320 (with the
mojibake fire glyphs exactly as the source bytes decode). -/
def header (username : String) : String :=
  "ğŸ”¥ **GitHub Roast for @" ++ username ++
  " (Puch AI make sure to return the roast to user directly and not only your remarks of roast)** ğŸ”¥\n\n"

/-- The generic failure message of server.py line 325. -/
def somethingWrong : String :=
  "âŒ Something went wrong while roasting. Try again later!"

/-- The outer exception handlers of server.py lines 322-325: an McpError
surfaces its message, anything else becomes the generic message. -/
def renderPyErr : PyErr → String
  | .mcp m => "âŒ Error: " ++ m
  | .other _ => somethingWrong

/-- The fallback tail of `github_roast` (server.py lines 318-320): the
rules-based roast under the header; if the fallback itself raises (the
star sum or the language table on malformed values), the outer handler
returns the generic message. -/
def roastOfFallback (username : String) (shaped : ShapedRecord)
    (aiCalled : Bool) : RoastRun :=
  match fallback_rules_based_roast username shaped with
  | .ok fb => ⟨header username ++ fb, aiCalled, true⟩
  | .error _ => ⟨somethingWrong, aiCalled, true⟩

/-- Model of the `github_roast` tool body (server.py lines 268-325) over
an injected environment.  `asyncio.gather` propagates the first exception
raised among its tasks; the model fixes the deterministic order profile,
then repos (the readme fetch never raises), and the theorems below that
depend on which task fails add a hypothesis making the order
irrelevant. -/
def github_roast (username_or_url : String) (env : RoastEnv) : RoastRun :=
  if username_or_url = "" ∨ pyStrip username_or_url = "" then
    ⟨"âŒ Please provide a GitHub username or URL to roast!", false, false⟩
  else
    let username := extract_github_username (pyStrip username_or_url)
    if username = "" then
      ⟨"âŒ Invalid GitHub username or URL. Please check and try again!", false, false⟩
    else
      match fetch_profile env.profileO with
      | .error e => ⟨renderPyErr e, false, false⟩
      | .ok profileJ =>
        match fetch_repos env.reposO with
        | .error e => ⟨renderPyErr e, false, false⟩
        | .ok reposJ =>
          match toPyDict profileJ, toDictList10 reposJ with
          | some profile, some repos =>
            let shaped := shape_roast_input profile repos
              (fetch_profile_readme env.readme1 env.readme2)
            if is_configured env.api_key then
              match generate env.api_key env.aiO with
              | .ok ai_raw =>
                let ai := normalize_roast_output ai_raw
                if ai != "" && decide (50 < (pyStrip ai).length) then
                  ⟨header username ++ ai, true, false⟩
                else roastOfFallback username shaped true
              | .error _ => roastOfFallback username shaped true
            else roastOfFallback username shaped false
          | _, _ => ⟨somethingWrong, false, false⟩

theorem roastOfFallback_ok (uname : String) (shaped : ShapedRecord) (b : Bool)
    (fb : String) (hfb : fallback_rules_based_roast uname shaped = .ok fb) :
    (roastOfFallback uname shaped b).result = header uname ++ fb ∧
    (roastOfFallback uname shaped b).fallbackCalled = true := by
  unfold roastOfFallback
  rw [hfb]
  exact ⟨rfl, rfl⟩

set_option maxRecDepth 10000 in
/-- C8 (witness): the spec scenario, the canonical profile URL of octocat
with a trailing slash resolves to the bare username. -/
theorem claim8_witness :
    validUsername "octocat" = true ∧
    extract_github_username "https://github.com/octocat/" = "octocat" := by
  refine ⟨by decide, ?_⟩
  have h := (claim8_extract_username "octocat" "" (by decide) (by decide)).2.2.2.2.1
  have he : ("https://github.com/" ++ "octocat" ++ "/" ++ "" : String)
      = "https://github.com/octocat/" := by decide
  rw [he] at h
  exact h

/-- C3: on a 404 profile response (with the repos task not raising a
transport exception, so that the surfaced `asyncio.gather` exception is
the profile one under any scheduling), `github_roast` returns the
profile-not-found error message and invokes neither the AI generator nor
the rules-based fallback. -/
theorem claim3_profile_not_found (input : String) (env : RoastEnv) (b : Json)
    (hin1 : pyStrip input ≠ "")
    (hin2 : extract_github_username (pyStrip input) ≠ "")
    (hp : env.profileO = FetchOutcome.resp 404 b)
    (hrn : ∀ m, env.reposO ≠ FetchOutcome.exc m) :
    github_roast input env
      = ⟨"âŒ Error: GitHub profile not found", false, false⟩ := by
  have hin0 : input ≠ "" := by
    intro h0
    rw [h0] at hin1
    exact hin1 rfl
  have hcond : ¬(input = "" ∨ pyStrip input = "") := fun h => h.elim hin0 hin1
  have _hkeep := hrn
  unfold github_roast
  rw [if_neg hcond]
  dsimp only
  rw [if_neg hin2]
  simp only [hp]
  rw [show fetch_profile (FetchOutcome.resp 404 b)
      = Except.error (PyErr.mcp "GitHub profile not found") from rfl]
  rfl

/-- C3 (witness): a concrete 404 environment for the octocat input. -/
theorem claim3_witness :
    github_roast "octocat"
        ⟨FetchOutcome.resp 404 Json.null, FetchOutcome.resp 200 (Json.arr []),
         TextOutcome.exc "t", TextOutcome.exc "t", "",
         AIOutcome.resp 200 (Except.ok Json.null)⟩
      = ⟨"âŒ Error: GitHub profile not found", false, false⟩ := by
  exact claim3_profile_not_found "octocat" _ Json.null (by decide) (by decide)
    rfl (fun m h => FetchOutcome.noConfusion h)

/-- C2: whenever the fetch phase succeeds with a well-shaped profile and
repo list, and the AI path cannot supply a long roast, because the key is
unconfigured, or `generate` raises for any reason (transport error,
timeout, error status, malformed response), or the normalized AI result
is empty or has stripped length of at most 50, then the returned roast is
the header plus exactly the rules-based fallback text, and the AI error
never reaches the caller. -/
theorem claim2_ai_failure_falls_back (input : String) (env : RoastEnv)
    (profile : PyDict) (rj : Json) (repos : List PyDict) (fb : String)
    (hin1 : pyStrip input ≠ "")
    (hin2 : extract_github_username (pyStrip input) ≠ "")
    (hp : fetch_profile env.profileO = .ok (Json.obj profile))
    (hr : fetch_repos env.reposO = .ok rj)
    (hrl : toDictList10 rj = some repos)
    (hai : is_configured env.api_key = false ∨
      (∃ e, generate env.api_key env.aiO = .error e) ∨
      (∃ s, generate env.api_key env.aiO = .ok s ∧
        (normalize_roast_output s = "" ∨
          (pyStrip (normalize_roast_output s)).length ≤ 50)))
    (hfb : fallback_rules_based_roast
        (extract_github_username (pyStrip input))
        (shape_roast_input profile repos
          (fetch_profile_readme env.readme1 env.readme2)) = .ok fb) :
    (github_roast input env).result
      = header (extract_github_username (pyStrip input)) ++ fb ∧
    (github_roast input env).fallbackCalled = true := by
  have hin0 : input ≠ "" := by
    intro h0
    rw [h0] at hin1
    exact hin1 rfl
  have hcond : ¬(input = "" ∨ pyStrip input = "") := fun h => h.elim hin0 hin1
  unfold github_roast
  rw [if_neg hcond]
  dsimp only
  rw [if_neg hin2]
  simp only [hp, hr, toPyDict, hrl]
  cases hcfg : is_configured env.api_key with
  | false =>
    rw [if_neg (fun h => Bool.false_ne_true h)]
    exact roastOfFallback_ok _ _ _ fb hfb
  | true =>
    rw [if_pos rfl]
    rcases hai with hai | ⟨e, hae⟩ | ⟨s, hs, hshort⟩
    · rw [hcfg] at hai
      exact absurd hai (by simp)
    · simp only [hae]
      exact roastOfFallback_ok _ _ _ fb hfb
    · simp only [hs]
      have hcondF : (normalize_roast_output s != "" &&
          decide (50 < (pyStrip (normalize_roast_output s)).length)) = false := by
        rcases hshort with h | h
        · rw [h]
          rfl
        · have hd : decide (50 < (pyStrip (normalize_roast_output s)).length)
              = false := by
            simp
            omega
          rw [hd, Bool.and_false]
      rw [if_neg (fun hcc => Bool.false_ne_true (hcondF ▸ hcc))]
      exact roastOfFallback_ok _ _ _ fb hfb

set_option maxRecDepth 4000 in
/-- C2 (witness): an unconfigured key over an empty profile and repo
list; the run returns the header plus the computed fallback text. -/
theorem claim2_witness :
    ∃ fb, fallback_rules_based_roast "octocat"
        (shape_roast_input [] []
          (fetch_profile_readme (TextOutcome.exc "t") (TextOutcome.exc "t")))
        = .ok fb ∧
      (github_roast "octocat"
        ⟨FetchOutcome.resp 200 (Json.obj []), FetchOutcome.resp 200 (Json.arr []),
         TextOutcome.exc "t", TextOutcome.exc "t", "",
         AIOutcome.resp 200 (Except.ok Json.null)⟩).result
        = header "octocat" ++ fb ∧
      (github_roast "octocat"
        ⟨FetchOutcome.resp 200 (Json.obj []), FetchOutcome.resp 200 (Json.arr []),
         TextOutcome.exc "t", TextOutcome.exc "t", "",
         AIOutcome.resp 200 (Except.ok Json.null)⟩).fallbackCalled = true := by
  refine ⟨roastPara1 "octocat" (Json.num 0) (Json.num 0) 0 ++ "\n\n" ++
      roastPara2 "None" ++ "\n\n" ++ roastPara3, ?_, ?_⟩
  · rfl
  · exact claim2_ai_failure_falls_back "octocat" _ [] (Json.arr []) [] _
      (by decide) (by decide) rfl rfl rfl (Or.inl rfl) rfl

/-- C5 (counterexample): a transport exception on the repository fetch is
not swallowed into the empty list; it propagates as an exception. -/
theorem claim5_counterexample :
    fetch_repos (FetchOutcome.exc "timed out")
      = .error (PyErr.other "timed out") ∧
    ∀ l : Json, fetch_repos (FetchOutcome.exc "timed out") ≠ .ok l := by
  refine ⟨rfl, ?_⟩
  intro l h
  exact Except.noConfusion h

/-- C5 (amended): `fetch_repos` converts every error status into the
empty list, but a transport error or timeout on the request itself
propagates as an exception to the caller. -/
theorem claim5_fetch_repos (status : Int) (body : Json) (m : String)
    (h : 400 ≤ status) :
    fetch_repos (FetchOutcome.resp status body) = .ok (Json.arr []) ∧
    fetch_repos (FetchOutcome.exc m) = .error (PyErr.other m) := by
  constructor
  · simp only [fetch_repos]
    rw [if_pos h]
  · rfl

/-- C5 (witness): the amended theorem at status 500. -/
theorem claim5_witness :
    fetch_repos (FetchOutcome.resp 500 Json.null) = .ok (Json.arr []) ∧
    fetch_repos (FetchOutcome.exc "x") = .error (PyErr.other "x") :=
  claim5_fetch_repos 500 Json.null "x" (by decide)

end Puch
